import Mathlib

/-!
Shallow embedding of the boom/bust cycle segmentation algorithm of
`environ/utils/computations.py` (functions `boom_bust_one_period`,
`boom_bust_periods`, `boom_bust`), together with theorems settling the
specification claims about it.

Modelling conventions:
* A pandas DataFrame with columns `time` and `price` is a `DataFrame`:
  a list of rows plus two booleans recording whether the `time` and
  `price` columns are present (the code checks for their presence).
* Times and prices are rationals (the Python floats are used only via
  comparisons and `*`, `+`, `-`, so `ℚ` is a faithful carrier).
* Python exceptions become `Except PyError`.  The two explicit
  `raise ValueError(...)` sites of `boom_bust_one_period` become
  `PyError.invalidInput` with the exact message.  Failing pandas lookups
  (label `0` on an empty column, label `-1` during the walk when a
  threshold is crossed at index 0, `sort_values(by="time")` without a
  `time` column) become `PyError.keyError`.
* The `while` loops are modelled with explicit fuel so that every
  definition is computable by the kernel; `none` (of `Option`) marks fuel
  exhaustion.  The inner walk loop takes at most `len - c` steps, so
  `walkFrom` supplies exactly that much fuel and is total.
-/

namespace Computations

/-- The three `main_trend` strings used by the code. -/
inductive Trend where
  | boom
  | bust
  | none
deriving DecidableEq, Inhabited

/-- One observation: a row of the `time_price` DataFrame. -/
structure Row where
  time : ℚ
  price : ℚ
deriving DecidableEq, Inhabited

/-- The `time_price` DataFrame: rows plus column-presence flags. -/
structure DataFrame where
  hasTime : Bool
  hasPrice : Bool
  rows : List Row
deriving DecidableEq, Inhabited

/-- Python exceptions that the embedded code can raise. -/
inductive PyError where
  | invalidInput (msg : String)
  | keyError
deriving DecidableEq, Inhabited

instance {ε α : Type*} [DecidableEq ε] [DecidableEq α] : DecidableEq (Except ε α) := fun x y =>
  match x, y with
  | Except.error a, Except.error b =>
    if h : a = b then Decidable.isTrue (h ▸ rfl)
    else Decidable.isFalse fun hc => h (Except.error.inj hc)
  | Except.ok a, Except.ok b =>
    if h : a = b then Decidable.isTrue (h ▸ rfl)
    else Decidable.isFalse fun hc => h (Except.ok.inj hc)
  | Except.error _, Except.ok _ => Decidable.isFalse fun hc => Except.noConfusion hc
  | Except.ok _, Except.error _ => Decidable.isFalse fun hc => Except.noConfusion hc

/-- The dictionary returned by `boom_bust_one_period`.
`stop` models the Python dict key `"end"` (`end` is a Lean keyword);
`preTrendEnd?` is `some _` exactly when the key `"pre_trend_end"` is set. -/
structure Cycle where
  mainTrend : Trend
  start : ℚ
  stop : ℚ
  preTrendEnd? : Option ℚ
deriving DecidableEq, Inhabited

/-- One element of the list returned by `boom_bust_periods`
(`stop` models the dict key `"end"`). -/
structure Segment where
  mainTrend : Trend
  start : ℚ
  stop : ℚ
deriving DecidableEq, Inhabited

/-- Boom walk condition: `price[cycle_end + 1] > price[cycle_end]`
(first argument is the next price, second the current one). -/
def boomCmp (nxt cur : ℚ) : Bool := decide (cur < nxt)

/-- Bust walk condition: `price[cycle_end + 1] < price[cycle_end]`. -/
def bustCmp (nxt cur : ℚ) : Bool := decide (nxt < cur)

/-- The `while` loop that extends `cycle_end` forward while the step
condition `cmp price[c+1] price[c]` holds, with explicit fuel. -/
def walkAux (cmp : ℚ → ℚ → Bool) (prices : List ℚ) : ℕ → ℕ → ℕ
  | 0, c => c
  | fuel + 1, c =>
    if c + 1 < prices.length ∧ cmp prices[c + 1]! prices[c]! = true then
      walkAux cmp prices fuel (c + 1)
    else c

/-- The walk loop with enough fuel to never be cut short: it can take at
most `prices.length - c` steps because each step needs `c + 1 < length`. -/
def walkFrom (cmp : ℚ → ℚ → Bool) (prices : List ℚ) (c : ℕ) : ℕ :=
  walkAux cmp prices (prices.length - c) c

/-- First index of the list satisfying `p`: models `np.where(cond)[0][0]`
(and the emptiness test `len(np.where(cond)[0]) > 0` via `Option`). -/
def firstIdxWhere (p : ℚ → Bool) : List ℚ → Option ℕ
  | [] => Option.none
  | x :: xs => if p x then some 0 else (firstIdxWhere p xs).map (· + 1)

/-- Index of the first minimum of the list: models `np.argmin`. -/
def argminIdx : List ℚ → ℕ
  | [] => 0
  | p :: rest => if rest.all (fun q => decide (p ≤ q)) then 0 else argminIdx rest + 1

/-- Index of the first maximum of the list: models `np.argmax`. -/
def argmaxIdx : List ℚ → ℕ
  | [] => 0
  | p :: rest => if rest.all (fun q => decide (q ≤ p)) then 0 else argmaxIdx rest + 1

/-- The boom branch of `boom_bust_one_period` after the first boom
crossing `b` (requires `1 ≤ b`; `b = 0` raises instead):
`cycle_end = b - 1` extended by the increasing walk, `end` that index's
time, `pre_trend_end` the time of `np.argmin` over prices `[0, cycle_end]`. -/
def mkBoomCycle (times prices : List ℚ) (b : ℕ) : Cycle :=
  let e := walkFrom boomCmp prices (b - 1)
  { mainTrend := Trend.boom, start := times[0]!, stop := times[e]!,
    preTrendEnd? := some (times[argminIdx (prices.take (e + 1))]!) }

/-- The bust branch of `boom_bust_one_period` after the first bust
crossing `u` (requires `1 ≤ u`): decreasing walk from `u - 1`,
`pre_trend_end` the time of `np.argmax` over prices `[0, cycle_end]`. -/
def mkBustCycle (times prices : List ℚ) (u : ℕ) : Cycle :=
  let e := walkFrom bustCmp prices (u - 1)
  { mainTrend := Trend.bust, start := times[0]!, stop := times[e]!,
    preTrendEnd? := some (times[argmaxIdx (prices.take (e + 1))]!) }

/-- The no-crossing branch: trend `none`, `end` the last observation's time. -/
def mkNoneCycle (times : List ℚ) : Cycle :=
  { mainTrend := Trend.none, start := times[0]!, stop := times.getLast!,
    preTrendEnd? := Option.none }

/-- The `price` column of the DataFrame. -/
def pricesOf (df : DataFrame) : List ℚ := df.rows.map Row.price

/-- The `time` column of the DataFrame. -/
def timesOf (df : DataFrame) : List ℚ := df.rows.map Row.time

/-- `boom_threshold = time_price["price"][0] * (1 + boom_change)`. -/
def boomThreshold (df : DataFrame) (boom_change : ℚ) : ℚ :=
  (pricesOf df)[0]! * (1 + boom_change)

/-- `bust_threshold = time_price["price"][0] * (1 - bust_change)`. -/
def bustThreshold (df : DataFrame) (bust_change : ℚ) : ℚ :=
  (pricesOf df)[0]! * (1 - bust_change)

/-- `np.where(price > boom_threshold)[0]`, reduced to its first element
(`boom[0]`) with `Option.none` for the empty case (`len(boom) == 0`). -/
def boomIdx? (df : DataFrame) (boom_change : ℚ) : Option ℕ :=
  firstIdxWhere (fun p => decide (boomThreshold df boom_change < p)) (pricesOf df)

/-- `np.where(price < bust_threshold)[0]`, reduced to its first element. -/
def bustIdx? (df : DataFrame) (bust_change : ℚ) : Option ℕ :=
  firstIdxWhere (fun p => decide (p < bustThreshold df bust_change)) (pricesOf df)

/-- `boom_bust_one_period` of `environ/utils/computations.py`.

The branch structure mirrors the source: empty check, column check,
thresholds from `price[0]`, first crossing of each threshold, then
`if len(boom) > 0: (if len(bust) > 0 and bust[0] < boom_end: bust else boom)
elif len(bust) > 0: bust else none`.  A crossing at index 0 makes the
source evaluate `price[-1]` (label lookup on a RangeIndex Series), which
raises a KeyError, modelled by `PyError.keyError`. -/
def boom_bust_one_period (df : DataFrame) (boom_change bust_change : ℚ) :
    Except PyError Cycle :=
  if df.rows.length = 0 then
    Except.error (PyError.invalidInput "Input DataFrame is empty.")
  else if ¬ (df.hasPrice = true ∧ df.hasTime = true) then
    Except.error (PyError.invalidInput "Input DataFrame missing required columns.")
  else
    match boomIdx? df boom_change, bustIdx? df bust_change with
    | some boomEnd, some bustIdx =>
      if bustIdx < boomEnd then
        if bustIdx = 0 then Except.error PyError.keyError
        else Except.ok (mkBustCycle (timesOf df) (pricesOf df) bustIdx)
      else
        if boomEnd = 0 then Except.error PyError.keyError
        else Except.ok (mkBoomCycle (timesOf df) (pricesOf df) boomEnd)
    | some boomEnd, Option.none =>
      if boomEnd = 0 then Except.error PyError.keyError
      else Except.ok (mkBoomCycle (timesOf df) (pricesOf df) boomEnd)
    | Option.none, some bustIdx =>
      if bustIdx = 0 then Except.error PyError.keyError
      else Except.ok (mkBustCycle (timesOf df) (pricesOf df) bustIdx)
    | Option.none, Option.none => Except.ok (mkNoneCycle (timesOf df))

/-- `boom_bust_list[-1]["end"] = v` on the accumulator.  The accumulator
is kept most-recent-first (the loop of `boomBustPeriodsAux` reverses it on
exit), so the Python list's last element is the head here. -/
def updateHeadStop (acc : List Segment) (v : ℚ) : List Segment :=
  match acc with
  | [] => []
  | s :: t => { s with stop := v } :: t

/-- The stitching policy of the loop body of `boom_bust_periods`
(accumulator most-recent-first): merge on same non-`none` trends, split at
`pre_trend_end` on a direction flip carrying one, plain append otherwise. -/
def stitch (cycle : Cycle) (previousTrend : Trend) (endCur : ℚ)
    (acc : List Segment) : List Segment :=
  if cycle.mainTrend ≠ Trend.none ∧ previousTrend ≠ Trend.none then
    if cycle.mainTrend = previousTrend then
      updateHeadStop acc cycle.stop
    else
      match cycle.preTrendEnd? with
      | some pre =>
        { mainTrend := cycle.mainTrend, start := pre, stop := cycle.stop } ::
          updateHeadStop acc pre
      | Option.none =>
        { mainTrend := cycle.mainTrend, start := endCur, stop := cycle.stop } :: acc
  else
    { mainTrend := cycle.mainTrend, start := endCur, stop := cycle.stop } :: acc

/-- The `while end < time_price["time"].iloc[-1]` loop of
`boom_bust_periods`, with explicit fuel (`Option.none` = fuel ran out).
Each iteration re-filters the rows to `time >= end`, runs the scanner,
stitches, and advances the cursor and the previous trend. -/
def boomBustPeriodsAux (boom_change bust_change : ℚ) (hasPrice : Bool) :
    ℕ → List Row → ℚ → Trend → List Segment →
    Option (Except PyError (List Segment))
  | 0, _, _, _, _ => Option.none
  | fuel + 1, rows, endCur, previousTrend, acc =>
    match rows.getLast? with
    | Option.none => some (Except.error PyError.keyError)
    | some lastRow =>
      if endCur < lastRow.time then
        let rows' := rows.filter (fun r => decide (endCur ≤ r.time))
        match boom_bust_one_period ⟨true, hasPrice, rows'⟩ boom_change bust_change with
        | Except.error e => some (Except.error e)
        | Except.ok cycle =>
          boomBustPeriodsAux boom_change bust_change hasPrice fuel rows'
            cycle.stop cycle.mainTrend (stitch cycle previousTrend endCur acc)
      else some (Except.ok acc.reverse)

/-- Stable insertion into a time-sorted list (models `sort_values(by="time")`;
ties in `time` are undefined behaviour per the spec, any time-sort is faithful). -/
def insertByTime (r : Row) : List Row → List Row
  | [] => [r]
  | s :: t => if decide (r.time ≤ s.time) = true then r :: s :: t else s :: insertByTime r t

/-- Sort the rows ascending by time. -/
def sortByTime : List Row → List Row
  | [] => []
  | r :: rest => insertByTime r (sortByTime rest)

/-- `boom_bust_periods` of `environ/utils/computations.py`.
Missing `time` column: `sort_values(by="time")` raises a KeyError.
Empty (sorted) frame: `time_price["time"][0]` raises a KeyError.
Otherwise run the loop from `end = time[0]`, `previous_trend = "none"`. -/
def boom_bust_periods (df : DataFrame) (boom_change bust_change : ℚ) (fuel : ℕ) :
    Option (Except PyError (List Segment)) :=
  if df.hasTime = true then
    match sortByTime df.rows with
    | [] => some (Except.error PyError.keyError)
    | r0 :: rest =>
      boomBustPeriodsAux boom_change bust_change df.hasPrice fuel (r0 :: rest)
        r0.time Trend.none []
  else some (Except.error PyError.keyError)

/-- The dict `{"boom": [...], "bust": [...], "none": [...]}` returned by
`boom_bust`: a fixed-key mapping from trend to interval list. -/
structure TrendDict where
  boomList : List (ℚ × ℚ)
  bustList : List (ℚ × ℚ)
  noneList : List (ℚ × ℚ)
deriving DecidableEq, Inhabited

/-- One step of the loop of `boom_bust`:
`boom_bust_dict[i["main_trend"]].append((i["start"], i["end"]))`. -/
def pushSegment (d : TrendDict) (s : Segment) : TrendDict :=
  match s.mainTrend with
  | Trend.boom => { d with boomList := d.boomList ++ [(s.start, s.stop)] }
  | Trend.bust => { d with bustList := d.bustList ++ [(s.start, s.stop)] }
  | Trend.none => { d with noneList := d.noneList ++ [(s.start, s.stop)] }

/-- `boom_bust` of `environ/utils/computations.py`: regroup the segment
list into the fixed-key dict, preserving order within each key. -/
def boom_bust (df : DataFrame) (boom_change bust_change : ℚ) (fuel : ℕ) :
    Option (Except PyError TrendDict) :=
  match boom_bust_periods df boom_change bust_change fuel with
  | Option.none => Option.none
  | some (Except.error e) => some (Except.error e)
  | some (Except.ok segs) => some (Except.ok (segs.foldl pushSegment ⟨[], [], []⟩))

/-! ### Lemmas about the extension walk -/

theorem walkAux_ge (cmp : ℚ → ℚ → Bool) (prices : List ℚ) :
    ∀ (fuel c : ℕ), c ≤ walkAux cmp prices fuel c := by
  intro fuel
  induction fuel with
  | zero => intro c; exact Nat.le_refl c
  | succ f ih =>
    intro c
    simp only [walkAux]
    split
    · exact Nat.le_trans (Nat.le_succ c) (ih (c + 1))
    · exact Nat.le_refl c

theorem walkAux_lt_length (cmp : ℚ → ℚ → Bool) (prices : List ℚ) :
    ∀ (fuel c : ℕ), c < prices.length → walkAux cmp prices fuel c < prices.length := by
  intro fuel
  induction fuel with
  | zero => intro c hc; exact hc
  | succ f ih =>
    intro c hc
    simp only [walkAux]
    split
    · next h => exact ih (c + 1) h.1
    · exact hc

theorem walkAux_ascent (cmp : ℚ → ℚ → Bool) (prices : List ℚ) :
    ∀ (fuel c j : ℕ), c ≤ j → j < walkAux cmp prices fuel c →
      cmp prices[j + 1]! prices[j]! = true := by
  intro fuel
  induction fuel with
  | zero => intro c j hcj hj; exact absurd hj (Nat.not_lt.mpr hcj)
  | succ f ih =>
    intro c j hcj hj
    simp only [walkAux] at hj
    split at hj
    · next h =>
      rcases Nat.eq_or_lt_of_le hcj with heq | hlt
      · subst heq; exact h.2
      · exact ih (c + 1) j hlt hj
    · exact absurd hj (Nat.not_lt.mpr hcj)

theorem walkAux_stop (cmp : ℚ → ℚ → Bool) (prices : List ℚ) :
    ∀ (fuel c : ℕ), prices.length - c ≤ fuel →
      ¬(walkAux cmp prices fuel c + 1 < prices.length ∧
        cmp prices[walkAux cmp prices fuel c + 1]! prices[walkAux cmp prices fuel c]! = true) := by
  intro fuel
  induction fuel with
  | zero =>
    intro c hc
    simp only [walkAux]
    intro h
    omega
  | succ f ih =>
    intro c hc
    simp only [walkAux]
    split
    · next h => exact ih (c + 1) (by omega)
    · next h => exact h

theorem walkFrom_ge (cmp : ℚ → ℚ → Bool) (prices : List ℚ) (c : ℕ) :
    c ≤ walkFrom cmp prices c :=
  walkAux_ge cmp prices _ c

theorem walkFrom_lt_length (cmp : ℚ → ℚ → Bool) (prices : List ℚ) (c : ℕ)
    (hc : c < prices.length) : walkFrom cmp prices c < prices.length :=
  walkAux_lt_length cmp prices _ c hc

theorem walkFrom_ascent (cmp : ℚ → ℚ → Bool) (prices : List ℚ) (c j : ℕ)
    (hcj : c ≤ j) (hj : j < walkFrom cmp prices c) :
    cmp prices[j + 1]! prices[j]! = true :=
  walkAux_ascent cmp prices _ c j hcj hj

theorem walkFrom_stop (cmp : ℚ → ℚ → Bool) (prices : List ℚ) (c : ℕ) :
    ¬(walkFrom cmp prices c + 1 < prices.length ∧
      cmp prices[walkFrom cmp prices c + 1]! prices[walkFrom cmp prices c]! = true) :=
  walkAux_stop cmp prices _ c (Nat.le_refl _)

theorem walkFrom_step (cmp : ℚ → ℚ → Bool) (prices : List ℚ) (c : ℕ)
    (h1 : c + 1 < prices.length) (h2 : cmp prices[c + 1]! prices[c]! = true) :
    c + 1 ≤ walkFrom cmp prices c := by
  have hfuel : prices.length - c = (prices.length - (c + 1)) + 1 := by omega
  unfold walkFrom
  rw [hfuel]
  simp only [walkAux]
  rw [if_pos ⟨h1, h2⟩]
  exact walkAux_ge cmp prices _ (c + 1)

/-! ### Lemmas about the first-crossing search -/

theorem firstIdxWhere_some (p : ℚ → Bool) :
    ∀ (l : List ℚ) (b : ℕ), firstIdxWhere p l = some b →
      b < l.length ∧ p l[b]! = true ∧ ∀ i, i < b → p l[i]! = false := by
  intro l
  induction l with
  | nil => intro b h; simp [firstIdxWhere] at h
  | cons x xs ih =>
    intro b h
    simp only [firstIdxWhere] at h
    split at h
    · next hx =>
      have hb : b = 0 := by simpa using h.symm
      subst hb
      refine ⟨by simp, by simpa using hx, ?_⟩
      intro i hi; omega
    · next hx =>
      rcases Option.map_eq_some'.mp h with ⟨b', hb', rfl⟩
      obtain ⟨hlt, hp, hmin⟩ := ih b' hb'
      refine ⟨by simpa using hlt, by simpa using hp, ?_⟩
      intro i hi
      match i with
      | 0 => simpa using Bool.eq_false_iff.mpr hx
      | i + 1 =>
        have : i < b' := by omega
        simpa using hmin i this

theorem firstIdxWhere_eq_none (p : ℚ → Bool) :
    ∀ (l : List ℚ), firstIdxWhere p l = Option.none ↔ ∀ i, i < l.length → p l[i]! = false := by
  intro l
  induction l with
  | nil => simp [firstIdxWhere]
  | cons x xs ih =>
    simp only [firstIdxWhere]
    constructor
    · intro h i hi
      split at h
      · simp at h
      · next hx =>
        match i with
        | 0 => simpa using Bool.eq_false_iff.mpr hx
        | i + 1 =>
          have := (ih.mp (by simpa using h)) i (by simpa using hi)
          simpa using this
    · intro h
      have hx : p x = false := by simpa using h 0 (by simp)
      rw [if_neg (by simp [hx])]
      rw [Option.map_eq_none', ih]
      intro i hi
      simpa using h (i + 1) (by simpa using hi)

/-! ### Lemmas about argmin / argmax -/

theorem argminIdx_lt_length : ∀ (l : List ℚ), l ≠ [] → argminIdx l < l.length := by
  intro l
  induction l with
  | nil => intro h; exact absurd rfl h
  | cons x xs ih =>
    intro _
    simp only [argminIdx]
    split
    · simp
    · next hall =>
      have hxs : xs ≠ [] := by
        intro he; subst he; simp at hall
      simpa using Nat.succ_lt_succ (ih hxs)

theorem argminIdx_le : ∀ (l : List ℚ) (k : ℕ), k < l.length → l[argminIdx l]! ≤ l[k]! := by
  intro l
  induction l with
  | nil => intro k hk; simp at hk
  | cons x xs ih =>
    intro k hk
    simp only [argminIdx]
    split
    · next hall =>
      rw [List.all_eq_true] at hall
      match k with
      | 0 => simp
      | k + 1 =>
        have hkx : xs[k]! ∈ xs := by
          have hklt : k < xs.length := by simpa using hk
          rw [getElem!_pos xs k hklt]
          exact xs.getElem_mem hklt
        simpa using of_decide_eq_true (hall _ hkx)
    · next hall =>
      have hxs : xs ≠ [] := by
        intro he; subst he; simp at hall
      have hminmem : ∃ q ∈ xs, ¬ x ≤ q := by
        by_contra hcon
        push_neg at hcon
        exact hall (List.all_eq_true.mpr fun q hq => decide_eq_true (hcon q hq))
      match k with
      | 0 =>
        obtain ⟨q, hq, hqlt⟩ := hminmem
        obtain ⟨i, hi, rfl⟩ := List.mem_iff_getElem.mp hq
        have h1 : xs[argminIdx xs]! ≤ xs[i]! := ih i hi
        rw [getElem!_pos xs i hi] at h1
        simp only [List.getElem!_cons_succ, List.getElem!_cons_zero]
        exact le_of_lt (lt_of_le_of_lt h1 (lt_of_not_le hqlt))
      | k + 1 =>
        have hklt : k < xs.length := by simpa using hk
        simpa using ih k hklt

theorem argmaxIdx_lt_length : ∀ (l : List ℚ), l ≠ [] → argmaxIdx l < l.length := by
  intro l
  induction l with
  | nil => intro h; exact absurd rfl h
  | cons x xs ih =>
    intro _
    simp only [argmaxIdx]
    split
    · simp
    · next hall =>
      have hxs : xs ≠ [] := by
        intro he; subst he; simp at hall
      simpa using Nat.succ_lt_succ (ih hxs)

theorem argmaxIdx_ge : ∀ (l : List ℚ) (k : ℕ), k < l.length → l[k]! ≤ l[argmaxIdx l]! := by
  intro l
  induction l with
  | nil => intro k hk; simp at hk
  | cons x xs ih =>
    intro k hk
    simp only [argmaxIdx]
    split
    · next hall =>
      rw [List.all_eq_true] at hall
      match k with
      | 0 => simp
      | k + 1 =>
        have hkx : xs[k]! ∈ xs := by
          have hklt : k < xs.length := by simpa using hk
          rw [getElem!_pos xs k hklt]
          exact xs.getElem_mem hklt
        simpa using of_decide_eq_true (hall _ hkx)
    · next hall =>
      have hxs : xs ≠ [] := by
        intro he; subst he; simp at hall
      have hminmem : ∃ q ∈ xs, ¬ q ≤ x := by
        by_contra hcon
        push_neg at hcon
        exact hall (List.all_eq_true.mpr fun q hq => decide_eq_true (hcon q hq))
      match k with
      | 0 =>
        obtain ⟨q, hq, hqlt⟩ := hminmem
        obtain ⟨i, hi, rfl⟩ := List.mem_iff_getElem.mp hq
        have h1 : xs[i]! ≤ xs[argmaxIdx xs]! := ih i hi
        rw [getElem!_pos xs i hi] at h1
        simp only [List.getElem!_cons_succ, List.getElem!_cons_zero]
        exact le_of_lt (lt_of_lt_of_le (lt_of_not_le hqlt) h1)
      | k + 1 =>
        have hklt : k < xs.length := by simpa using hk
        simpa using ih k hklt

/-! ### Case analysis of a successful single-period scan -/

theorem onePeriod_ok_shape (df : DataFrame) (bc sc : ℚ) (c : Cycle)
    (h : boom_bust_one_period df bc sc = Except.ok c) :
    df.rows ≠ [] ∧ df.hasPrice = true ∧ df.hasTime = true ∧
    ((boomIdx? df bc = Option.none ∧ bustIdx? df sc = Option.none ∧
        c = mkNoneCycle (timesOf df)) ∨
     (∃ b, boomIdx? df bc = some b ∧ 1 ≤ b ∧
        (∀ u, bustIdx? df sc = some u → ¬ u < b) ∧
        c = mkBoomCycle (timesOf df) (pricesOf df) b) ∨
     (∃ u, bustIdx? df sc = some u ∧ 1 ≤ u ∧
        (boomIdx? df bc = Option.none ∨ ∃ b, boomIdx? df bc = some b ∧ u < b) ∧
        c = mkBustCycle (timesOf df) (pricesOf df) u)) := by
  unfold boom_bust_one_period at h
  by_cases h0 : df.rows.length = 0
  · rw [if_pos h0] at h; exact absurd h (by simp)
  rw [if_neg h0] at h
  by_cases hcols : df.hasPrice = true ∧ df.hasTime = true
  · rw [if_neg (not_not_intro hcols)] at h
    refine ⟨fun hnil => h0 (by simp [hnil]), hcols.1, hcols.2, ?_⟩
    split at h
    · next boomEnd bustIdx hbm hbu =>
      by_cases hlt : bustIdx < boomEnd
      · rw [if_pos hlt] at h
        split at h
        · exact absurd h (by simp)
        · next hu0 =>
          right; right
          exact ⟨bustIdx, hbu, by omega, Or.inr ⟨boomEnd, hbm, hlt⟩, (Except.ok.inj h).symm⟩
      · rw [if_neg hlt] at h
        split at h
        · exact absurd h (by simp)
        · next hb0 =>
          right; left
          refine ⟨boomEnd, hbm, by omega, ?_, (Except.ok.inj h).symm⟩
          intro u hu
          have : u = bustIdx := Option.some.inj (hu.symm.trans hbu)
          omega
    · next boomEnd hbm hbu =>
      split at h
      · exact absurd h (by simp)
      · next hb0 =>
        right; left
        refine ⟨boomEnd, hbm, by omega, ?_, (Except.ok.inj h).symm⟩
        intro u hu
        exact absurd (hbu.symm.trans hu) (by simp)
    · next bustIdx hbm hbu =>
      split at h
      · exact absurd h (by simp)
      · next hu0 =>
        right; right
        exact ⟨bustIdx, hbu, by omega, Or.inl hbm, (Except.ok.inj h).symm⟩
    · next hbm hbu =>
      left
      exact ⟨hbm, hbu, (Except.ok.inj h).symm⟩
  · rw [if_pos hcols] at h
    exact absurd h (by simp)

theorem firstIdxWhere_eq_some_iff (p : ℚ → Bool) :
    ∀ (l : List ℚ) (b : ℕ), firstIdxWhere p l = some b ↔
      (b < l.length ∧ p l[b]! = true ∧ ∀ i, i < b → p l[i]! = false) := by
  intro l
  induction l with
  | nil => intro b; simp [firstIdxWhere]
  | cons x xs ih =>
    intro b
    constructor
    · exact firstIdxWhere_some p (x :: xs) b
    · rintro ⟨hlt, hp, hmin⟩
      simp only [firstIdxWhere]
      by_cases hx : p x = true
      · rw [if_pos hx]
        match b with
        | 0 => rfl
        | b + 1 => exact absurd (hmin 0 (by omega)) (by simpa using hx)
      · rw [if_neg hx]
        match b with
        | 0 => exact absurd hp (by simpa using Bool.eq_false_iff.mpr hx)
        | b + 1 =>
          have : firstIdxWhere p xs = some b := by
            rw [ih b]
            refine ⟨by simpa using hlt, by simpa using hp, ?_⟩
            intro i hi
            simpa using hmin (i + 1) (by omega)
          rw [this]
          rfl

/-! ### Generic list helpers -/

theorem getLast!_eq_getLast {α : Type*} [Inhabited α] (l : List α) (h : l ≠ []) :
    l.getLast! = l.getLast h := by
  cases l with
  | nil => exact absurd rfl h
  | cons a t => rfl

theorem timesOf_length (df : DataFrame) : (timesOf df).length = df.rows.length := by
  simp [timesOf]

theorem pricesOf_length (df : DataFrame) : (pricesOf df).length = df.rows.length := by
  simp [pricesOf]

theorem timesOf_getElem! (df : DataFrame) (i : ℕ) (hi : i < df.rows.length) :
    (timesOf df)[i]! = (df.rows[i]!).time := by
  rw [getElem!_pos _ i (by simpa [timesOf] using hi), getElem!_pos df.rows i hi]
  simp [timesOf]

theorem timesOf_getLast! (df : DataFrame) (h : df.rows ≠ []) :
    (timesOf df).getLast! = (df.rows.getLast h).time := by
  have hne : timesOf df ≠ [] := by simp [timesOf, h]
  rw [getLast!_eq_getLast _ hne]
  have hmap := List.getLast?_map Row.time df.rows
  rw [List.getLast?_eq_getLast _ h] at hmap
  have h2 : (timesOf df).getLast? = some ((df.rows.getLast h).time) := by
    simpa [timesOf] using hmap
  rw [List.getLast?_eq_getLast _ hne] at h2
  exact Option.some.inj h2

/-! ### The walk starts with at least one step after a genuine crossing -/

theorem boomIdx_walk_ge (df : DataFrame) (bc : ℚ) (b : ℕ)
    (hb : boomIdx? df bc = some b) (hb1 : 1 ≤ b) :
    b ≤ walkFrom boomCmp (pricesOf df) (b - 1) := by
  obtain ⟨hlt, hpb, hmin⟩ := firstIdxWhere_some _ _ _ hb
  have hprev : ¬ boomThreshold df bc < (pricesOf df)[b - 1]! := by
    have := hmin (b - 1) (by omega)
    simpa using of_decide_eq_false this
  have hcross : boomThreshold df bc < (pricesOf df)[b]! := by
    simpa using of_decide_eq_true hpb
  have hstep : (pricesOf df)[b - 1]! < (pricesOf df)[b]! :=
    lt_of_le_of_lt (not_lt.mp hprev) hcross
  have h1 : (b - 1) + 1 = b := by omega
  have := walkFrom_step boomCmp (pricesOf df) (b - 1)
    (by rw [h1]; exact hlt)
    (by rw [h1]; exact decide_eq_true hstep)
  omega

theorem bustIdx_walk_ge (df : DataFrame) (sc : ℚ) (u : ℕ)
    (hu : bustIdx? df sc = some u) (hu1 : 1 ≤ u) :
    u ≤ walkFrom bustCmp (pricesOf df) (u - 1) := by
  obtain ⟨hlt, hpu, hmin⟩ := firstIdxWhere_some _ _ _ hu
  have hprev : ¬ (pricesOf df)[u - 1]! < bustThreshold df sc := by
    have := hmin (u - 1) (by omega)
    simpa using of_decide_eq_false this
  have hcross : (pricesOf df)[u]! < bustThreshold df sc := by
    simpa using of_decide_eq_true hpu
  have hstep : (pricesOf df)[u]! < (pricesOf df)[u - 1]! :=
    lt_of_lt_of_le hcross (not_lt.mp hprev)
  have h1 : (u - 1) + 1 = u := by omega
  have := walkFrom_step bustCmp (pricesOf df) (u - 1)
    (by rw [h1]; exact hlt)
    (by rw [h1]; exact decide_eq_true hstep)
  omega

/-! ### Spec-side characterisation of the crossing indices -/

/-- `b` is the first index of the window whose price strictly exceeds the
boom threshold (the spec's "first index where `price > boom_threshold`"). -/
def IsFirstBoomIdx (df : DataFrame) (bc : ℚ) (b : ℕ) : Prop :=
  b < (pricesOf df).length ∧ boomThreshold df bc < (pricesOf df)[b]! ∧
    ∀ i, i < b → ¬ boomThreshold df bc < (pricesOf df)[i]!

/-- `u` is the first index of the window whose price falls strictly below
the bust threshold. -/
def IsFirstBustIdx (df : DataFrame) (sc : ℚ) (u : ℕ) : Prop :=
  u < (pricesOf df).length ∧ (pricesOf df)[u]! < bustThreshold df sc ∧
    ∀ i, i < u → ¬ (pricesOf df)[i]! < bustThreshold df sc

instance (df : DataFrame) (bc : ℚ) (b : ℕ) : Decidable (IsFirstBoomIdx df bc b) := by
  unfold IsFirstBoomIdx; infer_instance

instance (df : DataFrame) (sc : ℚ) (u : ℕ) : Decidable (IsFirstBustIdx df sc u) := by
  unfold IsFirstBustIdx; infer_instance

theorem boomIdx?_iff (df : DataFrame) (bc : ℚ) (b : ℕ) :
    boomIdx? df bc = some b ↔ IsFirstBoomIdx df bc b := by
  rw [boomIdx?, firstIdxWhere_eq_some_iff]
  unfold IsFirstBoomIdx
  constructor
  · rintro ⟨h1, h2, h3⟩
    exact ⟨h1, by simpa using of_decide_eq_true h2,
      fun i hi => by simpa using of_decide_eq_false (h3 i hi)⟩
  · rintro ⟨h1, h2, h3⟩
    exact ⟨h1, by simpa using decide_eq_true h2,
      fun i hi => by simpa using decide_eq_false (h3 i hi)⟩

theorem bustIdx?_iff (df : DataFrame) (sc : ℚ) (u : ℕ) :
    bustIdx? df sc = some u ↔ IsFirstBustIdx df sc u := by
  rw [bustIdx?, firstIdxWhere_eq_some_iff]
  unfold IsFirstBustIdx
  constructor
  · rintro ⟨h1, h2, h3⟩
    exact ⟨h1, by simpa using of_decide_eq_true h2,
      fun i hi => by simpa using of_decide_eq_false (h3 i hi)⟩
  · rintro ⟨h1, h2, h3⟩
    exact ⟨h1, by simpa using decide_eq_true h2,
      fun i hi => by simpa using decide_eq_false (h3 i hi)⟩

theorem boomIdx?_none_iff (df : DataFrame) (bc : ℚ) :
    boomIdx? df bc = Option.none ↔
      ∀ i, i < (pricesOf df).length → ¬ boomThreshold df bc < (pricesOf df)[i]! := by
  rw [boomIdx?, firstIdxWhere_eq_none]
  constructor
  · intro h i hi
    exact of_decide_eq_false (by simpa using h i hi)
  · intro h i hi
    simpa using decide_eq_false (h i hi)

theorem bustIdx?_none_iff (df : DataFrame) (sc : ℚ) :
    bustIdx? df sc = Option.none ↔
      ∀ i, i < (pricesOf df).length → ¬ (pricesOf df)[i]! < bustThreshold df sc := by
  rw [bustIdx?, firstIdxWhere_eq_none]
  constructor
  · intro h i hi
    exact of_decide_eq_false (by simpa using h i hi)
  · intro h i hi
    simpa using decide_eq_false (h i hi)

/-- C1: for a successfully classified window, the first crossing in index
order decides the trend: a bust crossing earlier than every boom crossing
(in particular when no boom crossing exists) gives `bust`; a boom crossing
with no strictly earlier bust crossing gives `boom`; and when neither
threshold is crossed anywhere the trend is `none` and the end is the time
of the last observation of the window. -/
theorem C1_crossing_priority (df : DataFrame) (bc sc : ℚ) (c : Cycle)
    (h : boom_bust_one_period df bc sc = Except.ok c) :
    ((∀ i, i < (pricesOf df).length → ¬ boomThreshold df bc < (pricesOf df)[i]!) →
     (∀ i, i < (pricesOf df).length → ¬ (pricesOf df)[i]! < bustThreshold df sc) →
       c.mainTrend = Trend.none ∧ c.stop = (timesOf df).getLast!) ∧
    (∀ u, IsFirstBustIdx df sc u → (∀ b, IsFirstBoomIdx df bc b → u < b) →
       c.mainTrend = Trend.bust) ∧
    (∀ b, IsFirstBoomIdx df bc b → (∀ u, IsFirstBustIdx df sc u → ¬ u < b) →
       c.mainTrend = Trend.boom) := by
  obtain ⟨hne, hhp, hht, hcase⟩ := onePeriod_ok_shape df bc sc c h
  refine ⟨?_, ?_, ?_⟩
  · intro hnoboom hnobust
    rcases hcase with ⟨_, _, rfl⟩ | ⟨b, hb, _, _, _⟩ | ⟨u, hu, _, _, _⟩
    · exact ⟨rfl, rfl⟩
    · exact absurd ((boomIdx?_iff df bc b).mp hb)
        (fun hfb => hnoboom b hfb.1 hfb.2.1)
    · exact absurd ((bustIdx?_iff df sc u).mp hu)
        (fun hfu => hnobust u hfu.1 hfu.2.1)
  · intro u hu hlt
    rcases hcase with ⟨hbm, hbu, rfl⟩ | ⟨b, hb, _, hnob, rfl⟩ | ⟨u', hu', _, _, rfl⟩
    · exact absurd ((bustIdx?_iff df sc u).mpr hu) (by simp [hbu])
    · have := hnob u ((bustIdx?_iff df sc u).mpr hu)
      exact absurd (hlt b ((boomIdx?_iff df bc b).mp hb)) this
    · rfl
  · intro b hb hge
    rcases hcase with ⟨hbm, hbu, rfl⟩ | ⟨b', hb', _, _, rfl⟩ | ⟨u, hu, _, hpri, rfl⟩
    · exact absurd ((boomIdx?_iff df bc b).mpr hb) (by simp [hbm])
    · rfl
    · rcases hpri with hnone | ⟨b', hb', hlt⟩
      · exact absurd ((boomIdx?_iff df bc b).mpr hb) (by simp [hnone])
      · have hbb : b' = b := by
          have := hb'.symm.trans ((boomIdx?_iff df bc b).mpr hb)
          simpa using this
        subst hbb
        exact absurd hlt (hge u ((bustIdx?_iff df sc u).mp hu))

/-- C2: for a window classified `boom` (resp. `bust`), the end index is the
result of the walk started one index before the first crossing; along the
walked stretch the price strictly increases (resp. strictly decreases)
step to step, the walk stops at the first break of monotonicity or at the
sequence end, and the stopping index's time is the cycle's end. -/
theorem C2_monotonic_extension (df : DataFrame) (bc sc : ℚ) (c : Cycle)
    (h : boom_bust_one_period df bc sc = Except.ok c) :
    (c.mainTrend = Trend.boom →
      ∃ b e, boomIdx? df bc = some b ∧ 1 ≤ b ∧
        e = walkFrom boomCmp (pricesOf df) (b - 1) ∧
        b ≤ e ∧ e < (pricesOf df).length ∧
        c.stop = (timesOf df)[e]! ∧
        (∀ j, b - 1 ≤ j → j < e → (pricesOf df)[j]! < (pricesOf df)[j + 1]!) ∧
        (e + 1 = (pricesOf df).length ∨ (pricesOf df)[e + 1]! ≤ (pricesOf df)[e]!)) ∧
    (c.mainTrend = Trend.bust →
      ∃ u e, bustIdx? df sc = some u ∧ 1 ≤ u ∧
        e = walkFrom bustCmp (pricesOf df) (u - 1) ∧
        u ≤ e ∧ e < (pricesOf df).length ∧
        c.stop = (timesOf df)[e]! ∧
        (∀ j, u - 1 ≤ j → j < e → (pricesOf df)[j + 1]! < (pricesOf df)[j]!) ∧
        (e + 1 = (pricesOf df).length ∨ (pricesOf df)[e]! ≤ (pricesOf df)[e + 1]!)) := by
  obtain ⟨hne, hhp, hht, hcase⟩ := onePeriod_ok_shape df bc sc c h
  constructor
  · intro hboom
    rcases hcase with ⟨_, _, rfl⟩ | ⟨b, hb, hb1, _, rfl⟩ | ⟨u, hu, hu1, _, rfl⟩
    · exact absurd hboom (by simp [mkNoneCycle])
    · refine ⟨b, walkFrom boomCmp (pricesOf df) (b - 1), hb, hb1, rfl, ?_, ?_, rfl, ?_, ?_⟩
      · exact boomIdx_walk_ge df bc b hb hb1
      · have hblt := (firstIdxWhere_some _ _ _ hb).1
        exact walkFrom_lt_length boomCmp (pricesOf df) (b - 1) (by omega)
      · intro j hj1 hj2
        have := walkFrom_ascent boomCmp (pricesOf df) (b - 1) j hj1 hj2
        simpa using of_decide_eq_true this
      · have := walkFrom_stop boomCmp (pricesOf df) (b - 1)
        rw [not_and_or] at this
        rcases this with h1 | h2
        · left
          have hblt := (firstIdxWhere_some _ _ _ hb).1
          have := walkFrom_lt_length boomCmp (pricesOf df) (b - 1) (by omega)
          omega
        · right
          simp only [boomCmp, decide_eq_true_eq] at h2
          exact not_lt.mp h2
    · exact absurd hboom (by simp [mkBustCycle])
  · intro hbust
    rcases hcase with ⟨_, _, rfl⟩ | ⟨b, hb, hb1, _, rfl⟩ | ⟨u, hu, hu1, _, rfl⟩
    · exact absurd hbust (by simp [mkNoneCycle])
    · exact absurd hbust (by simp [mkBoomCycle])
    · refine ⟨u, walkFrom bustCmp (pricesOf df) (u - 1), hu, hu1, rfl, ?_, ?_, rfl, ?_, ?_⟩
      · exact bustIdx_walk_ge df sc u hu hu1
      · have hult := (firstIdxWhere_some _ _ _ hu).1
        exact walkFrom_lt_length bustCmp (pricesOf df) (u - 1) (by omega)
      · intro j hj1 hj2
        have := walkFrom_ascent bustCmp (pricesOf df) (u - 1) j hj1 hj2
        simpa using of_decide_eq_true this
      · have := walkFrom_stop bustCmp (pricesOf df) (u - 1)
        rw [not_and_or] at this
        rcases this with h1 | h2
        · left
          have hult := (firstIdxWhere_some _ _ _ hu).1
          have := walkFrom_lt_length bustCmp (pricesOf df) (u - 1) (by omega)
          omega
        · right
          simp only [bustCmp, decide_eq_true_eq] at h2
          exact not_lt.mp h2

theorem getElem!_take (l : List ℚ) (m i : ℕ) (hi : i < m) (hl : i < l.length) :
    (l.take m)[i]! = l[i]! := by
  have h1 : i < (l.take m).length := by
    rw [List.length_take]
    omega
  rw [getElem!_pos (l.take m) i h1, getElem!_pos l i hl]
  exact List.getElem_take l

theorem take_length_of_lt (l : List ℚ) (e : ℕ) (he : e < l.length) :
    (l.take (e + 1)).length = e + 1 := by
  rw [List.length_take]
  omega

/-- C3: for a `boom` window the `pre_trend_end` is the time of (the first
index attaining) the minimum price over `[0, end_idx]`; for a `bust`
window it is the time of the maximum price over `[0, end_idx]`; for a
`none` window the field is absent. -/
theorem C3_pre_trend_end (df : DataFrame) (bc sc : ℚ) (c : Cycle)
    (h : boom_bust_one_period df bc sc = Except.ok c) :
    (c.mainTrend = Trend.none → c.preTrendEnd? = Option.none) ∧
    (c.mainTrend = Trend.boom →
      ∃ b e, boomIdx? df bc = some b ∧ 1 ≤ b ∧
        e = walkFrom boomCmp (pricesOf df) (b - 1) ∧ e < (pricesOf df).length ∧
        c.stop = (timesOf df)[e]! ∧
        ∃ j, j ≤ e ∧ c.preTrendEnd? = some ((timesOf df)[j]!) ∧
          ∀ k, k ≤ e → (pricesOf df)[j]! ≤ (pricesOf df)[k]!) ∧
    (c.mainTrend = Trend.bust →
      ∃ u e, bustIdx? df sc = some u ∧ 1 ≤ u ∧
        e = walkFrom bustCmp (pricesOf df) (u - 1) ∧ e < (pricesOf df).length ∧
        c.stop = (timesOf df)[e]! ∧
        ∃ j, j ≤ e ∧ c.preTrendEnd? = some ((timesOf df)[j]!) ∧
          ∀ k, k ≤ e → (pricesOf df)[k]! ≤ (pricesOf df)[j]!) := by
  obtain ⟨hne, hhp, hht, hcase⟩ := onePeriod_ok_shape df bc sc c h
  refine ⟨?_, ?_, ?_⟩
  · intro h0
    rcases hcase with ⟨_, _, rfl⟩ | ⟨b, hb, hb1, _, rfl⟩ | ⟨u, hu, hu1, _, rfl⟩
    · rfl
    · exact absurd h0 (by simp [mkBoomCycle])
    · exact absurd h0 (by simp [mkBustCycle])
  · intro h0
    rcases hcase with ⟨_, _, rfl⟩ | ⟨b, hb, hb1, _, rfl⟩ | ⟨u, hu, hu1, _, rfl⟩
    · exact absurd h0 (by simp [mkNoneCycle])
    · have hblt := (firstIdxWhere_some _ _ _ hb).1
      have helt : walkFrom boomCmp (pricesOf df) (b - 1) < (pricesOf df).length :=
        walkFrom_lt_length boomCmp (pricesOf df) (b - 1) (by omega)
      refine ⟨b, walkFrom boomCmp (pricesOf df) (b - 1), hb, hb1, rfl, helt, rfl, ?_⟩
      set e := walkFrom boomCmp (pricesOf df) (b - 1) with he
      have htne : (pricesOf df).take (e + 1) ≠ [] := by
        have := take_length_of_lt (pricesOf df) e helt
        intro hcon
        rw [hcon] at this
        simp at this
      have hjlt : argminIdx ((pricesOf df).take (e + 1)) < e + 1 := by
        have := argminIdx_lt_length _ htne
        rwa [take_length_of_lt (pricesOf df) e helt] at this
      refine ⟨argminIdx ((pricesOf df).take (e + 1)), by omega, rfl, ?_⟩
      intro k hk
      have hkl : k < (pricesOf df).length := by omega
      have := argminIdx_le ((pricesOf df).take (e + 1)) k
        (by rw [take_length_of_lt (pricesOf df) e helt]; omega)
      rwa [getElem!_take (pricesOf df) (e + 1) _ hjlt (by omega),
        getElem!_take (pricesOf df) (e + 1) k (by omega) hkl] at this
    · exact absurd h0 (by simp [mkBustCycle])
  · intro h0
    rcases hcase with ⟨_, _, rfl⟩ | ⟨b, hb, hb1, _, rfl⟩ | ⟨u, hu, hu1, _, rfl⟩
    · exact absurd h0 (by simp [mkNoneCycle])
    · exact absurd h0 (by simp [mkBoomCycle])
    · have hult := (firstIdxWhere_some _ _ _ hu).1
      have helt : walkFrom bustCmp (pricesOf df) (u - 1) < (pricesOf df).length :=
        walkFrom_lt_length bustCmp (pricesOf df) (u - 1) (by omega)
      refine ⟨u, walkFrom bustCmp (pricesOf df) (u - 1), hu, hu1, rfl, helt, rfl, ?_⟩
      set e := walkFrom bustCmp (pricesOf df) (u - 1) with he
      have htne : (pricesOf df).take (e + 1) ≠ [] := by
        have := take_length_of_lt (pricesOf df) e helt
        intro hcon
        rw [hcon] at this
        simp at this
      have hjlt : argmaxIdx ((pricesOf df).take (e + 1)) < e + 1 := by
        have := argmaxIdx_lt_length _ htne
        rwa [take_length_of_lt (pricesOf df) e helt] at this
      refine ⟨argmaxIdx ((pricesOf df).take (e + 1)), by omega, rfl, ?_⟩
      intro k hk
      have hkl : k < (pricesOf df).length := by omega
      have := argmaxIdx_ge ((pricesOf df).take (e + 1)) k
        (by rw [take_length_of_lt (pricesOf df) e helt]; omega)
      rwa [getElem!_take (pricesOf df) (e + 1) _ hjlt (by omega),
        getElem!_take (pricesOf df) (e + 1) k (by omega) hkl] at this

/-- C4: the stitching policy of the loop body of `boom_bust_periods`
(the accumulator is most-recent-first, so the Python list's last emitted
segment is the head here): (a) same non-`none` trend as the previous
cycle: no new segment, the last emitted segment's end is extended to the
cycle's end; (b) direction flip with a `pre_trend_end`: the last segment's
end becomes `pre_trend_end` and a new segment `[pre_trend_end, cycle.end]`
with the new trend is appended; (c) if the current or the previous cycle
is `none`: a fresh segment `[end cursor, cycle.end]` is always appended,
never merged. -/
theorem C4_stitching_policy (cycle : Cycle) (prev : Trend) (endCur : ℚ) :
    (∀ s acc, cycle.mainTrend ≠ Trend.none → prev ≠ Trend.none →
       cycle.mainTrend = prev →
       stitch cycle prev endCur (s :: acc) = { s with stop := cycle.stop } :: acc) ∧
    (∀ p s acc, cycle.mainTrend ≠ Trend.none → prev ≠ Trend.none →
       cycle.mainTrend ≠ prev → cycle.preTrendEnd? = some p →
       stitch cycle prev endCur (s :: acc) =
         { mainTrend := cycle.mainTrend, start := p, stop := cycle.stop } ::
           { s with stop := p } :: acc) ∧
    (∀ acc, cycle.mainTrend = Trend.none ∨ prev = Trend.none →
       stitch cycle prev endCur acc =
         { mainTrend := cycle.mainTrend, start := endCur, stop := cycle.stop } :: acc) := by
  refine ⟨?_, ?_, ?_⟩
  · intro s acc h1 h2 h3
    rw [stitch, if_pos ⟨h1, h2⟩, if_pos h3]
    rfl
  · intro p s acc h1 h2 h3 hpre
    rw [stitch, if_pos ⟨h1, h2⟩, if_neg h3, hpre]
    rfl
  · intro acc hor
    rw [stitch, if_neg]
    rw [not_and_or]
    rcases hor with h | h
    · exact Or.inl (not_not_intro h)
    · exact Or.inr (not_not_intro h)

/-- C8: every cycle that `boom_bust_one_period` classifies `boom` or
`bust` carries a `pre_trend_end`, so on a direction flip the stitching
always takes the `pre_trend_end` branch: the branch for a flip without
`pre_trend_end` is unreachable for cycles produced by the scanner. -/
theorem C8_pre_always_present (df : DataFrame) (bc sc : ℚ) (c : Cycle)
    (h : boom_bust_one_period df bc sc = Except.ok c)
    (hn : c.mainTrend ≠ Trend.none) :
    ∃ p, c.preTrendEnd? = some p ∧
      ∀ prev endCur acc, prev ≠ Trend.none → c.mainTrend ≠ prev →
        stitch c prev endCur acc =
          { mainTrend := c.mainTrend, start := p, stop := c.stop } ::
            updateHeadStop acc p := by
  obtain ⟨hne, hhp, hht, hcase⟩ := onePeriod_ok_shape df bc sc c h
  have hpre : ∃ p, c.preTrendEnd? = some p := by
    rcases hcase with ⟨_, _, rfl⟩ | ⟨b, hb, hb1, _, rfl⟩ | ⟨u, hu, hu1, _, rfl⟩
    · exact absurd rfl hn
    · exact ⟨_, rfl⟩
    · exact ⟨_, rfl⟩
  obtain ⟨p, hp⟩ := hpre
  refine ⟨p, hp, ?_⟩
  intro prev endCur acc hprev hflip
  rw [stitch, if_pos ⟨hn, hprev⟩, if_neg hflip, hp]

/-- C7 (amended): `boom_bust_one_period` raises `InvalidInputError`
(the `ValueError`s of the source) iff the observation sequence is empty or
lacks the `price` or `time` column; a scan error inside the segmentation
loop propagates immediately as the result of the whole loop with no
partial result; but the full segmentation on empty input fails with a
`KeyError` from the initial `time_price["time"][0]` lookup, not with
`InvalidInputError`. -/
theorem C7_error_handling :
    (∀ (df : DataFrame) (bc sc : ℚ),
      (∃ m, boom_bust_one_period df bc sc = Except.error (PyError.invalidInput m)) ↔
        (df.rows.length = 0 ∨ ¬ (df.hasPrice = true ∧ df.hasTime = true))) ∧
    (∀ (bc sc : ℚ) (hp : Bool) (fuel : ℕ) (rows : List Row) (endCur : ℚ)
        (prev : Trend) (acc : List Segment) (e : PyError) (lastRow : Row),
      rows.getLast? = some lastRow → endCur < lastRow.time →
      boom_bust_one_period ⟨true, hp, rows.filter (fun r => decide (endCur ≤ r.time))⟩ bc sc =
        Except.error e →
      boomBustPeriodsAux bc sc hp (fuel + 1) rows endCur prev acc =
        some (Except.error e)) ∧
    (∀ (bc sc : ℚ) (fuel : ℕ) (ht hp : Bool),
      boom_bust_periods ⟨ht, hp, []⟩ bc sc fuel = some (Except.error PyError.keyError)) := by
  refine ⟨?_, ?_, ?_⟩
  · intro df bc sc
    constructor
    · rintro ⟨m, hm⟩
      by_cases h0 : df.rows.length = 0
      · exact Or.inl h0
      by_cases hcols : df.hasPrice = true ∧ df.hasTime = true
      · exfalso
        rw [boom_bust_one_period, if_neg h0, if_neg (not_not_intro hcols)] at hm
        split at hm
        · split at hm <;> split at hm <;> simp at hm
        · split at hm <;> simp at hm
        · split at hm <;> simp at hm
        · simp at hm
      · exact Or.inr hcols
    · intro hor
      by_cases h0 : df.rows.length = 0
      · exact ⟨"Input DataFrame is empty.", by rw [boom_bust_one_period, if_pos h0]⟩
      · rcases hor with h | hcols
        · exact absurd h h0
        · exact ⟨"Input DataFrame missing required columns.",
            by rw [boom_bust_one_period, if_neg h0, if_pos hcols]⟩
  · intro bc sc hp fuel rows endCur prev acc e lastRow hlast hlt hscan
    simp only [boomBustPeriodsAux, hlast, if_pos hlt, hscan]
  · intro bc sc fuel ht hp
    cases ht <;> rfl

/-- C7 counterexample: running the full segmentation on empty input
raises `KeyError` (from the `time_price["time"][0]` lookup), which is not
the `InvalidInputError` (`ValueError`) the claim announces. -/
theorem C7_counterexample :
    boom_bust_periods ⟨true, true, []⟩ (3/10) (3/10) 1 =
      some (Except.error PyError.keyError) ∧
    ∀ m, PyError.keyError ≠ PyError.invalidInput m :=
  ⟨rfl, fun _ h => PyError.noConfusion h⟩

/-- Concrete instantiation of the three parts of `C7_error_handling`. -/
theorem C7_witness :
    (∃ m, boom_bust_one_period ⟨true, true, ([] : List Row)⟩ (3/10) (3/10) =
      Except.error (PyError.invalidInput m)) ∧
    boomBustPeriodsAux (3/10) (3/10) false 1 [⟨1, 5⟩, ⟨2, 6⟩] 1 Trend.none [] =
      some (Except.error (PyError.invalidInput "Input DataFrame missing required columns.")) ∧
    boom_bust_periods ⟨true, true, []⟩ (3/10) (3/10) 7 =
      some (Except.error PyError.keyError) := by
  refine ⟨?_, ?_, ?_⟩
  · exact (C7_error_handling.1 ⟨true, true, []⟩ (3/10) (3/10)).mpr (Or.inl rfl)
  · exact C7_error_handling.2.1 (3/10) (3/10) false 0 [⟨1, 5⟩, ⟨2, 6⟩] 1 Trend.none []
      (PyError.invalidInput "Input DataFrame missing required columns.") ⟨2, 6⟩
      (by decide) (by with_unfolding_all decide) (by with_unfolding_all decide)
  · exact C7_error_handling.2.2 (3/10) (3/10) 7 true true

/-- A concrete window: prices `[10, 12, 29, 20, 5]` at times `[1..5]`.
With the default 30% thresholds the first boom crossing is index 2
(29 > 13) and the first bust crossing is index 4 (5 < 7), so the scan
classifies `boom` with end time 3 and `pre_trend_end` 1. -/
def exampleDf : DataFrame :=
  ⟨true, true, [⟨1, 10⟩, ⟨2, 12⟩, ⟨3, 29⟩, ⟨4, 20⟩, ⟨5, 5⟩]⟩

/-- The scan result on `exampleDf`. -/
def exampleCycle : Cycle := ⟨Trend.boom, 1, 3, some 1⟩

/-- Concrete instantiation of `C1_crossing_priority` on `exampleDf`. -/
theorem C1_witness : exampleCycle.mainTrend = Trend.boom := by
  have h := C1_crossing_priority exampleDf (3/10) (3/10) exampleCycle
    (by with_unfolding_all decide)
  refine h.2.2 2 (by with_unfolding_all decide) ?_
  intro u hu
  have h4 : bustIdx? exampleDf (3/10) = some 4 := by with_unfolding_all decide
  have hu4 := Option.some.inj (h4.symm.trans ((bustIdx?_iff exampleDf (3/10) u).mpr hu))
  omega

/-- Concrete instantiation of `C2_monotonic_extension` on `exampleDf`. -/
theorem C2_witness :
    ∃ b e, boomIdx? exampleDf (3/10) = some b ∧ 1 ≤ b ∧
      e = walkFrom boomCmp (pricesOf exampleDf) (b - 1) ∧
      b ≤ e ∧ e < (pricesOf exampleDf).length ∧
      exampleCycle.stop = (timesOf exampleDf)[e]! ∧
      (∀ j, b - 1 ≤ j → j < e →
        (pricesOf exampleDf)[j]! < (pricesOf exampleDf)[j + 1]!) ∧
      (e + 1 = (pricesOf exampleDf).length ∨
        (pricesOf exampleDf)[e + 1]! ≤ (pricesOf exampleDf)[e]!) :=
  (C2_monotonic_extension exampleDf (3/10) (3/10) exampleCycle
    (by with_unfolding_all decide)).1 rfl

/-- Concrete instantiation of `C3_pre_trend_end` on `exampleDf`. -/
theorem C3_witness :
    ∃ b e, boomIdx? exampleDf (3/10) = some b ∧ 1 ≤ b ∧
      e = walkFrom boomCmp (pricesOf exampleDf) (b - 1) ∧
      e < (pricesOf exampleDf).length ∧
      exampleCycle.stop = (timesOf exampleDf)[e]! ∧
      ∃ j, j ≤ e ∧ exampleCycle.preTrendEnd? = some ((timesOf exampleDf)[j]!) ∧
        ∀ k, k ≤ e → (pricesOf exampleDf)[j]! ≤ (pricesOf exampleDf)[k]! :=
  (C3_pre_trend_end exampleDf (3/10) (3/10) exampleCycle
    (by with_unfolding_all decide)).2.1 rfl

/-- Concrete instantiation of the three branches of `C4_stitching_policy`. -/
theorem C4_witness :
    stitch ⟨Trend.boom, 0, 9, some 4⟩ Trend.boom 2 [⟨Trend.boom, 1, 2⟩] =
      [⟨Trend.boom, 1, 9⟩] ∧
    stitch ⟨Trend.bust, 0, 9, some 4⟩ Trend.boom 2 [⟨Trend.boom, 1, 2⟩] =
      [⟨Trend.bust, 4, 9⟩, ⟨Trend.boom, 1, 4⟩] ∧
    stitch ⟨Trend.none, 0, 9, Option.none⟩ Trend.boom 2 [⟨Trend.boom, 1, 2⟩] =
      [⟨Trend.none, 2, 9⟩, ⟨Trend.boom, 1, 2⟩] := by
  refine ⟨?_, ?_, ?_⟩
  · exact (C4_stitching_policy ⟨Trend.boom, 0, 9, some 4⟩ Trend.boom 2).1
      ⟨Trend.boom, 1, 2⟩ [] (by decide) (by decide) rfl
  · exact (C4_stitching_policy ⟨Trend.bust, 0, 9, some 4⟩ Trend.boom 2).2.1
      4 ⟨Trend.boom, 1, 2⟩ [] (by decide) (by decide) (by decide) rfl
  · exact (C4_stitching_policy ⟨Trend.none, 0, 9, Option.none⟩ Trend.boom 2).2.2
      [⟨Trend.boom, 1, 2⟩] (Or.inl rfl)

/-- Concrete instantiation of `C8_pre_always_present` on `exampleDf`. -/
theorem C8_witness :
    ∃ p, exampleCycle.preTrendEnd? = some p ∧
      ∀ prev endCur acc, prev ≠ Trend.none → exampleCycle.mainTrend ≠ prev →
        stitch exampleCycle prev endCur acc =
          { mainTrend := exampleCycle.mainTrend, start := p,
            stop := exampleCycle.stop } :: updateHeadStop acc p :=
  C8_pre_always_present exampleDf (3/10) (3/10) exampleCycle
    (by with_unfolding_all decide) (by decide)

/-! ### Sorting and filtering infrastructure -/

theorem pricesOf_getElem! (df : DataFrame) (i : ℕ) (hi : i < df.rows.length) :
    (pricesOf df)[i]! = (df.rows[i]!).price := by
  rw [getElem!_pos (pricesOf df) i (by simpa [pricesOf] using hi), getElem!_pos df.rows i hi]
  simp [pricesOf]

theorem insertByTime_mem (r : Row) :
    ∀ (l : List Row) (x : Row), x ∈ insertByTime r l ↔ x = r ∨ x ∈ l := by
  intro l
  induction l with
  | nil => intro x; simp [insertByTime]
  | cons s t ih =>
    intro x
    simp only [insertByTime]
    split
    · simp [List.mem_cons]
    · rw [List.mem_cons, ih x, List.mem_cons]
      tauto

theorem insertByTime_pairwise (r : Row) :
    ∀ (l : List Row), l.Pairwise (fun a b => a.time ≤ b.time) →
      (insertByTime r l).Pairwise (fun a b => a.time ≤ b.time) := by
  intro l
  induction l with
  | nil => intro _; simp [insertByTime]
  | cons s t ih =>
    intro hl
    rw [List.pairwise_cons] at hl
    simp only [insertByTime]
    split
    · next hrs =>
      rw [List.pairwise_cons]
      refine ⟨?_, List.pairwise_cons.mpr hl⟩
      intro b hb
      rcases List.mem_cons.mp hb with rfl | hbt
      · exact of_decide_eq_true hrs
      · exact le_trans (of_decide_eq_true hrs) (hl.1 b hbt)
    · next hrs =>
      have hsr : s.time ≤ r.time :=
        le_of_lt (lt_of_not_le (fun hc => hrs (decide_eq_true hc)))
      rw [List.pairwise_cons]
      refine ⟨?_, ih hl.2⟩
      intro b hb
      rcases (insertByTime_mem r t b).mp hb with rfl | hbt
      · exact hsr
      · exact hl.1 b hbt

theorem sortByTime_pairwise :
    ∀ (l : List Row), (sortByTime l).Pairwise (fun a b => a.time ≤ b.time) := by
  intro l
  induction l with
  | nil => simp [sortByTime]
  | cons r t ih => exact insertByTime_pairwise r (sortByTime t) ih

theorem sortByTime_mem :
    ∀ (l : List Row) (x : Row), x ∈ sortByTime l ↔ x ∈ l := by
  intro l
  induction l with
  | nil => intro x; simp [sortByTime]
  | cons r t ih =>
    intro x
    rw [sortByTime, insertByTime_mem r (sortByTime t) x, ih x, List.mem_cons]

theorem sortByTime_eq_self :
    ∀ (l : List Row), l.Pairwise (fun a b => a.time ≤ b.time) → sortByTime l = l := by
  intro l
  induction l with
  | nil => intro _; rfl
  | cons r t ih =>
    intro hl
    rw [List.pairwise_cons] at hl
    rw [sortByTime, ih hl.2]
    cases t with
    | nil => rfl
    | cons s t' =>
      rw [insertByTime, if_pos (decide_eq_true (hl.1 s (List.mem_cons_self s t')))]

theorem sorted_time_mono (l : List Row)
    (hl : l.Pairwise (fun a b => a.time ≤ b.time))
    (i j : ℕ) (hij : i ≤ j) (hj : j < l.length) : (l[i]!).time ≤ (l[j]!).time := by
  rcases eq_or_lt_of_le hij with rfl | hlt
  · exact le_refl _
  · rw [getElem!_pos l i (by omega), getElem!_pos l j hj]
    exact List.pairwise_iff_getElem.mp hl i j (by omega) hj hlt

theorem sorted_time_strict (l : List Row)
    (hl : l.Pairwise (fun a b => a.time < b.time))
    (i j : ℕ) (hij : i < j) (hj : j < l.length) : (l[i]!).time < (l[j]!).time := by
  rw [getElem!_pos l i (by omega), getElem!_pos l j hj]
  exact List.pairwise_iff_getElem.mp hl i j (by omega) hj hij

theorem time_le_getLast (l : List Row)
    (hl : l.Pairwise (fun a b => a.time ≤ b.time)) (h : l ≠ []) :
    ∀ r ∈ l, r.time ≤ (l.getLast h).time := by
  intro r hr
  obtain ⟨i, hi, rfl⟩ := List.mem_iff_getElem.mp hr
  rw [List.getLast_eq_getElem]
  rcases Nat.lt_or_ge i (l.length - 1) with hlt | hge
  · exact List.pairwise_iff_getElem.mp hl i (l.length - 1) hi (by omega) hlt
  · have : i = l.length - 1 := by omega
    subst this
    exact le_refl _

theorem getLast?_filter_of_getLast (p : Row → Bool) :
    ∀ (l : List Row) (a : Row), l.getLast? = some a → p a = true →
      (l.filter p).getLast? = some a := by
  intro l
  induction l with
  | nil => intro a h _; simp at h
  | cons x t ih =>
    intro a h hpa
    cases t with
    | nil =>
      have hax : x = a := by simpa using h
      subst hax
      simp [List.filter, hpa]
    | cons y t' =>
      rw [List.getLast?_cons_cons] at h
      have hft := ih a h hpa
      have hfne : (y :: t').filter p ≠ [] := by
        intro hcon
        rw [hcon] at hft
        simp at hft
      rw [List.filter_cons]
      split
    -- keep `x`: cons over a nonempty filtered tail keeps the same last
      · obtain ⟨z, zs, hz⟩ := List.exists_cons_of_ne_nil hfne
        rw [show ((y :: t').filter p : List Row) = z :: zs from hz] at hft ⊢
        rw [List.getLast?_cons_cons]
        exact hft
      · exact hft

theorem filter_ge_head (endCur : ℚ) :
    ∀ (l : List Row), l.Pairwise (fun a b => a.time < b.time) →
      ∀ r0 ∈ l, r0.time = endCur →
      ∃ rest, l.filter (fun r => decide (endCur ≤ r.time)) = r0 :: rest := by
  intro l
  induction l with
  | nil => intro _ r0 h; simp at h
  | cons x t ih =>
    intro hl r0 hr0 ht0
    rw [List.pairwise_cons] at hl
    rcases List.mem_cons.mp hr0 with rfl | hmem
    · refine ⟨t.filter (fun r => decide (endCur ≤ r.time)), ?_⟩
      rw [List.filter_cons, if_pos (decide_eq_true (le_of_eq ht0.symm))]
    · have hxlt : x.time < endCur := ht0 ▸ hl.1 r0 hmem
      rw [List.filter_cons, if_neg (by simpa using not_le.mpr hxlt)]
      exact ih hl.2 r0 hmem ht0

/-! ### Facts about a successful scan on a window -/

theorem onePeriod_ok_window (hp : Bool) (rows : List Row) (bc sc : ℚ) (cycle : Cycle)
    (h : boom_bust_one_period ⟨true, hp, rows⟩ bc sc = Except.ok cycle) :
    rows ≠ [] ∧
    (∃ r ∈ rows, r.time = cycle.stop) ∧
    (rows.Pairwise (fun a b => a.time ≤ b.time) →
      ∀ p, cycle.preTrendEnd? = some p → ∃ r ∈ rows, r.time = p ∧ p ≤ cycle.stop) ∧
    (cycle.mainTrend = Trend.none →
      ∀ (hne : rows ≠ []), cycle.stop = (rows.getLast hne).time) ∧
    (cycle.mainTrend ≠ Trend.none →
      ∃ e, 1 ≤ e ∧ e < rows.length ∧ (rows[e]!).time = cycle.stop) := by
  obtain ⟨hne, hhp, hht, hcase⟩ := onePeriod_ok_shape ⟨true, hp, rows⟩ bc sc cycle h
  have hrows : (⟨true, hp, rows⟩ : DataFrame).rows = rows := rfl
  have hplen : (pricesOf (⟨true, hp, rows⟩ : DataFrame)).length = rows.length := by
    simp [pricesOf]
  rw [hrows] at hne
  rcases hcase with ⟨_, _, rfl⟩ | ⟨b, hb, hb1, _, rfl⟩ | ⟨u, hu, hu1, _, rfl⟩
  · refine ⟨hne, ?_, ?_, ?_, ?_⟩
    · refine ⟨rows.getLast hne, List.getLast_mem hne, ?_⟩
      rw [show (mkNoneCycle (timesOf ⟨true, hp, rows⟩)).stop =
        (timesOf ⟨true, hp, rows⟩).getLast! from rfl]
      rw [timesOf_getLast! ⟨true, hp, rows⟩ hne]
    · intro _ p hpcon
      exact absurd hpcon (by simp [mkNoneCycle])
    · intro _ hne'
      rw [show (mkNoneCycle (timesOf ⟨true, hp, rows⟩)).stop =
        (timesOf ⟨true, hp, rows⟩).getLast! from rfl]
      rw [timesOf_getLast! ⟨true, hp, rows⟩ hne']
    · intro hcon
      exact absurd rfl hcon
  · have hblt := (firstIdxWhere_some _ _ _ hb).1
    rw [pricesOf_length] at hblt
    rw [hrows] at hblt
    set e := walkFrom boomCmp (pricesOf ⟨true, hp, rows⟩) (b - 1) with hedef
    have helt : e < rows.length := by
      have := walkFrom_lt_length boomCmp (pricesOf ⟨true, hp, rows⟩) (b - 1)
        (by rw [hplen]; omega)
      rwa [hplen] at this
    have hbe : b ≤ e := boomIdx_walk_ge ⟨true, hp, rows⟩ bc b hb hb1
    have hstop : (mkBoomCycle (timesOf ⟨true, hp, rows⟩) (pricesOf ⟨true, hp, rows⟩) b).stop =
        (rows[e]!).time := by
      rw [show (mkBoomCycle (timesOf ⟨true, hp, rows⟩) (pricesOf ⟨true, hp, rows⟩) b).stop =
        (timesOf ⟨true, hp, rows⟩)[e]! from rfl]
      exact timesOf_getElem! ⟨true, hp, rows⟩ e helt
    refine ⟨hne, ?_, ?_, ?_, ?_⟩
    · refine ⟨rows[e]!, ?_, hstop.symm⟩
      rw [getElem!_pos rows e helt]
      exact rows.getElem_mem helt
    · intro hsort p hp'
      have hjdef : (mkBoomCycle (timesOf ⟨true, hp, rows⟩) (pricesOf ⟨true, hp, rows⟩) b).preTrendEnd? =
          some ((timesOf ⟨true, hp, rows⟩)[argminIdx ((pricesOf ⟨true, hp, rows⟩).take (e + 1))]!) := rfl
      rw [hjdef] at hp'
      have hp'' := Option.some.inj hp'
      set j := argminIdx ((pricesOf ⟨true, hp, rows⟩).take (e + 1)) with hjd
      have hjle : j ≤ e := by
        have htne : (pricesOf ⟨true, hp, rows⟩).take (e + 1) ≠ [] := by
          intro hcon
          have := take_length_of_lt (pricesOf ⟨true, hp, rows⟩) e (by rw [hplen]; exact helt)
          rw [hcon] at this
          simp at this
        have := argminIdx_lt_length _ htne
        rw [take_length_of_lt (pricesOf ⟨true, hp, rows⟩) e (by rw [hplen]; exact helt)] at this
        omega
      have hptime : p = (rows[j]!).time := by
        rw [← hp'']
        exact timesOf_getElem! ⟨true, hp, rows⟩ j (by show j < rows.length; omega)
      refine ⟨rows[j]!, ?_, hptime.symm, ?_⟩
      · rw [getElem!_pos rows j (by omega)]
        exact rows.getElem_mem (by omega)
      · rw [hptime, hstop]
        exact sorted_time_mono rows hsort j e hjle helt
    · intro hcon
      exact absurd hcon (by simp [mkBoomCycle])
    · intro _
      exact ⟨e, by omega, helt, hstop.symm⟩
  · have hult := (firstIdxWhere_some _ _ _ hu).1
    rw [pricesOf_length] at hult
    rw [hrows] at hult
    set e := walkFrom bustCmp (pricesOf ⟨true, hp, rows⟩) (u - 1) with hedef
    have helt : e < rows.length := by
      have := walkFrom_lt_length bustCmp (pricesOf ⟨true, hp, rows⟩) (u - 1)
        (by rw [hplen]; omega)
      rwa [hplen] at this
    have hue : u ≤ e := bustIdx_walk_ge ⟨true, hp, rows⟩ sc u hu hu1
    have hstop : (mkBustCycle (timesOf ⟨true, hp, rows⟩) (pricesOf ⟨true, hp, rows⟩) u).stop =
        (rows[e]!).time := by
      rw [show (mkBustCycle (timesOf ⟨true, hp, rows⟩) (pricesOf ⟨true, hp, rows⟩) u).stop =
        (timesOf ⟨true, hp, rows⟩)[e]! from rfl]
      exact timesOf_getElem! ⟨true, hp, rows⟩ e helt
    refine ⟨hne, ?_, ?_, ?_, ?_⟩
    · refine ⟨rows[e]!, ?_, hstop.symm⟩
      rw [getElem!_pos rows e helt]
      exact rows.getElem_mem helt
    · intro hsort p hp'
      have hjdef : (mkBustCycle (timesOf ⟨true, hp, rows⟩) (pricesOf ⟨true, hp, rows⟩) u).preTrendEnd? =
          some ((timesOf ⟨true, hp, rows⟩)[argmaxIdx ((pricesOf ⟨true, hp, rows⟩).take (e + 1))]!) := rfl
      rw [hjdef] at hp'
      have hp'' := Option.some.inj hp'
      set j := argmaxIdx ((pricesOf ⟨true, hp, rows⟩).take (e + 1)) with hjd
      have hjle : j ≤ e := by
        have htne : (pricesOf ⟨true, hp, rows⟩).take (e + 1) ≠ [] := by
          intro hcon
          have := take_length_of_lt (pricesOf ⟨true, hp, rows⟩) e (by rw [hplen]; exact helt)
          rw [hcon] at this
          simp at this
        have := argmaxIdx_lt_length _ htne
        rw [take_length_of_lt (pricesOf ⟨true, hp, rows⟩) e (by rw [hplen]; exact helt)] at this
        omega
      have hptime : p = (rows[j]!).time := by
        rw [← hp'']
        exact timesOf_getElem! ⟨true, hp, rows⟩ j (by show j < rows.length; omega)
      refine ⟨rows[j]!, ?_, hptime.symm, ?_⟩
      · rw [getElem!_pos rows j (by omega)]
        exact rows.getElem_mem (by omega)
      · rw [hptime, hstop]
        exact sorted_time_mono rows hsort j e hjle helt
    · intro hcon
      exact absurd hcon (by simp [mkBustCycle])
    · intro _
      exact ⟨e, by omega, helt, hstop.symm⟩

/-- With positive prices, positive thresholds parameters and both columns
present, a scan on a nonempty window never raises: crossing index 0 is
impossible because the window's first price cannot exceed its own
inflated threshold nor undercut its own deflated threshold. -/
theorem onePeriod_ok_of_pos (rows : List Row) (bc sc : ℚ)
    (hne : rows ≠ []) (hpos : ∀ r ∈ rows, 0 < r.price)
    (hbc : 0 < bc) (hsc : 0 < sc) :
    ∃ cycle, boom_bust_one_period ⟨true, true, rows⟩ bc sc = Except.ok cycle := by
  have hlen : ¬ (⟨true, true, rows⟩ : DataFrame).rows.length = 0 := by
    simpa using fun hc => hne (List.length_eq_zero.mp hc)
  have h0 : 0 < rows.length := List.length_pos.mpr hne
  have hp0 : 0 < (pricesOf ⟨true, true, rows⟩)[0]! := by
    rw [pricesOf_getElem! ⟨true, true, rows⟩ 0 h0]
    refine hpos rows[0]! ?_
    rw [getElem!_pos rows 0 h0]
    exact rows.getElem_mem h0
  have hbnz : ∀ b, boomIdx? ⟨true, true, rows⟩ bc = some b → ¬ b = 0 := by
    intro b hb hb0
    subst hb0
    have hcross := (firstIdxWhere_some _ _ _ hb).2.1
    have : boomThreshold ⟨true, true, rows⟩ bc < (pricesOf ⟨true, true, rows⟩)[0]! := by
      simpa using of_decide_eq_true hcross
    rw [boomThreshold] at this
    nlinarith [mul_pos hp0 hbc]
  have hunz : ∀ u, bustIdx? ⟨true, true, rows⟩ sc = some u → ¬ u = 0 := by
    intro u hu hu0
    subst hu0
    have hcross := (firstIdxWhere_some _ _ _ hu).2.1
    have : (pricesOf ⟨true, true, rows⟩)[0]! < bustThreshold ⟨true, true, rows⟩ sc := by
      simpa using of_decide_eq_true hcross
    rw [bustThreshold] at this
    nlinarith [mul_pos hp0 hsc]
  unfold boom_bust_one_period
  rw [if_neg hlen, if_neg (not_not_intro ⟨rfl, rfl⟩)]
  rcases hbm : boomIdx? ⟨true, true, rows⟩ bc with _ | b <;>
    rcases hbu : bustIdx? ⟨true, true, rows⟩ sc with _ | u <;>
    simp only [hbm, hbu]
  · exact ⟨_, rfl⟩
  · rw [if_neg (hunz u hbu)]
    exact ⟨_, rfl⟩
  · rw [if_neg (hbnz b hbm)]
    exact ⟨_, rfl⟩
  · by_cases hlt : u < b
    · rw [if_pos hlt, if_neg (hunz u hbu)]
      exact ⟨_, rfl⟩
    · rw [if_neg hlt, if_neg (hbnz b hbm)]
      exact ⟨_, rfl⟩

theorem getLast?_cons_ne_nil {α : Type*} (x : α) (l : List α) (h : l ≠ []) :
    (x :: l).getLast? = l.getLast? := by
  cases l with
  | nil => exact absurd rfl h
  | cons y t => exact List.getLast?_cons_cons

/-- One stitching step preserves the accumulator invariants
(accumulator kept most-recent-first): nonemptiness, reverse contiguity,
head's `stop` equal to the new cursor, `start ≤ stop` per segment, and
the oldest segment's `start` anchored at `t0`. -/
theorem stitch_invariant (cycle : Cycle) (prev : Trend) (endCur t0 : ℚ)
    (acc : List Segment)
    (hA0 : prev ≠ Trend.none → acc ≠ [])
    (hchain : acc.Chain' (fun a b => b.stop = a.start))
    (hhead : ∀ s, acc.head? = some s → s.stop = endCur)
    (hse : ∀ s ∈ acc, s.start ≤ s.stop)
    (hlast : ∀ s, acc.getLast? = some s → s.start = t0)
    (hinit : acc = [] → endCur = t0)
    (hstop : endCur ≤ cycle.stop)
    (hpre : ∀ p, cycle.preTrendEnd? = some p → endCur ≤ p ∧ p ≤ cycle.stop) :
    stitch cycle prev endCur acc ≠ [] ∧
    (stitch cycle prev endCur acc).Chain' (fun a b => b.stop = a.start) ∧
    (∀ s, (stitch cycle prev endCur acc).head? = some s → s.stop = cycle.stop) ∧
    (∀ s ∈ stitch cycle prev endCur acc, s.start ≤ s.stop) ∧
    (∀ s, (stitch cycle prev endCur acc).getLast? = some s → s.start = t0) := by
  by_cases hcond : cycle.mainTrend ≠ Trend.none ∧ prev ≠ Trend.none
  · obtain ⟨a, t, rfl⟩ := List.exists_cons_of_ne_nil (hA0 hcond.2)
    have hastop : a.stop = endCur := hhead a rfl
    by_cases heq : cycle.mainTrend = prev
    · rw [stitch, if_pos hcond, if_pos heq, updateHeadStop]
      refine ⟨by simp, ?_, ?_, ?_, ?_⟩
      · cases t with
        | nil => simp
        | cons u t' =>
          rw [List.chain'_cons] at hchain ⊢
          exact ⟨hchain.1, hchain.2⟩
      · intro s hs
        cases Option.some.inj hs
        rfl
      · intro s hs
        rcases List.mem_cons.mp hs with rfl | hst
        · exact le_trans (le_trans (hse a (List.mem_cons_self a t)) (le_of_eq hastop)) hstop
        · exact hse s (List.mem_cons_of_mem a hst)
      · intro s hs
        cases t with
        | nil =>
          cases Option.some.inj hs
          exact hlast a rfl
        | cons u t' =>
          rw [getLast?_cons_ne_nil _ (u :: t') (by simp)] at hs
          exact hlast s (by rw [getLast?_cons_ne_nil _ (u :: t') (by simp)]; exact hs)
    · rcases hpcase : cycle.preTrendEnd? with _ | p
      · rw [stitch, if_pos hcond, if_neg heq, hpcase]
        refine ⟨by simp, ?_, ?_, ?_, ?_⟩
        · rw [List.chain'_cons]
          exact ⟨hastop, hchain⟩
        · intro s hs
          cases Option.some.inj hs
          rfl
        · intro s hs
          rcases List.mem_cons.mp hs with rfl | hst
          · exact hstop
          · exact hse s hst
        · intro s hs
          rw [getLast?_cons_ne_nil _ (a :: t) (by simp)] at hs
          exact hlast s hs
      · rw [stitch, if_pos hcond, if_neg heq]
        simp only [hpcase]
        obtain ⟨hp1, hp2⟩ := hpre p hpcase
        rw [updateHeadStop]
        refine ⟨by simp, ?_, ?_, ?_, ?_⟩
        · rw [List.chain'_cons]
          constructor
          · rfl
          · cases t with
            | nil => simp
            | cons u t' =>
              rw [List.chain'_cons] at hchain ⊢
              exact ⟨hchain.1, hchain.2⟩
        · intro s hs
          cases Option.some.inj hs
          rfl
        · intro s hs
          rcases List.mem_cons.mp hs with rfl | hst
          · exact hp2
          · rcases List.mem_cons.mp hst with rfl | hst'
            · exact le_trans (le_trans (hse a (List.mem_cons_self a t)) (le_of_eq hastop)) hp1
            · exact hse s (List.mem_cons_of_mem a hst')
        · intro s hs
          rw [getLast?_cons_ne_nil _ ({ a with stop := p } :: t) (by simp)] at hs
          cases t with
          | nil =>
            cases Option.some.inj hs
            exact hlast a rfl
          | cons u t' =>
            rw [getLast?_cons_ne_nil _ (u :: t') (by simp)] at hs
            exact hlast s (by rw [getLast?_cons_ne_nil _ (u :: t') (by simp)]; exact hs)
  · rw [stitch, if_neg hcond]
    refine ⟨by simp, ?_, ?_, ?_, ?_⟩
    · cases acc with
      | nil => simp
      | cons a t =>
        rw [List.chain'_cons]
        exact ⟨hhead a rfl, hchain⟩
    · intro s hs
      cases Option.some.inj hs
      rfl
    · intro s hs
      rcases List.mem_cons.mp hs with rfl | hst
      · exact hstop
      · exact hse s hst
    · intro s hs
      cases acc with
      | nil =>
        cases Option.some.inj hs
        exact hinit rfl
      | cons a t =>
        rw [getLast?_cons_ne_nil _ (a :: t) (by simp)] at hs
        exact hlast s hs

/-- Loop invariant of `boomBustPeriodsAux`: on a sorted suffix whose last
time is `T`, a run that terminates normally turns an accumulator
satisfying the stitching invariants into a contiguous, ordered segment
list anchored at `t0` and closing at `T`. -/
theorem periodsAux_invariant (bc sc : ℚ) (hp : Bool) (t0 T : ℚ) :
    ∀ (fuel : ℕ) (rows : List Row) (endCur : ℚ) (prev : Trend)
      (acc segs : List Segment),
      rows.Pairwise (fun a b => a.time ≤ b.time) →
      (∀ r ∈ rows, r.time ≤ T) →
      (∀ lr, rows.getLast? = some lr → lr.time = T) →
      endCur ≤ T →
      (prev ≠ Trend.none → acc ≠ []) →
      acc.Chain' (fun a b => b.stop = a.start) →
      (∀ s, acc.head? = some s → s.stop = endCur) →
      (∀ s ∈ acc, s.start ≤ s.stop) →
      (∀ s, acc.getLast? = some s → s.start = t0) →
      (acc = [] → endCur = t0) →
      boomBustPeriodsAux bc sc hp fuel rows endCur prev acc = some (Except.ok segs) →
      segs.Chain' (fun a b => a.stop = b.start) ∧
      (∀ s ∈ segs, s.start ≤ s.stop) ∧
      (∀ s, segs.head? = some s → s.start = t0) ∧
      (∀ s, segs.getLast? = some s → s.stop = T) ∧
      (segs = [] → t0 = T) := by
  intro fuel
  induction fuel with
  | zero =>
    intro rows endCur prev acc segs _ _ _ _ _ _ _ _ _ _ hrun
    simp [boomBustPeriodsAux] at hrun
  | succ f ih =>
    intro rows endCur prev acc segs hsort hleT hlastT hendT hA0 hchain hhead hse
      hlastStart hinit hrun
    rw [boomBustPeriodsAux] at hrun
    rcases hgl : rows.getLast? with _ | lastRow
    · rw [hgl] at hrun
      simp at hrun
    simp only [hgl] at hrun
    by_cases hlt : endCur < lastRow.time
    · rw [if_pos hlt] at hrun
      rcases hscan : boom_bust_one_period
          ⟨true, hp, rows.filter (fun r => decide (endCur ≤ r.time))⟩ bc sc with e | cycle
      · rw [hscan] at hrun
        simp at hrun
      rw [hscan] at hrun
      obtain ⟨hWne, hstopmem, hpref, _, _⟩ :=
        onePeriod_ok_window hp (rows.filter (fun r => decide (endCur ≤ r.time))) bc sc cycle hscan
      have hsort' := hsort.filter (fun r => decide (endCur ≤ r.time))
      have hleT' : ∀ r ∈ rows.filter (fun r => decide (endCur ≤ r.time)), r.time ≤ T :=
        fun r hr => hleT r (List.mem_filter.mp hr).1
      have hlastW : (rows.filter (fun r => decide (endCur ≤ r.time))).getLast? = some lastRow :=
        getLast?_filter_of_getLast _ rows lastRow hgl (decide_eq_true (le_of_lt hlt))
      have hlastT' : ∀ lr, (rows.filter (fun r => decide (endCur ≤ r.time))).getLast? = some lr →
          lr.time = T := by
        intro lr h'
        have := Option.some.inj (hlastW.symm.trans h')
        subst this
        exact hlastT lastRow hgl
      have hstople : cycle.stop ≤ T := by
        obtain ⟨r, hrW, hrt⟩ := hstopmem
        exact hrt ▸ hleT' r hrW
      have hstopge : endCur ≤ cycle.stop := by
        obtain ⟨r, hrW, hrt⟩ := hstopmem
        have := (List.mem_filter.mp hrW).2
        exact hrt ▸ of_decide_eq_true this
      have hpre' : ∀ p, cycle.preTrendEnd? = some p → endCur ≤ p ∧ p ≤ cycle.stop := by
        intro p hpp
        obtain ⟨r, hrW, hrt, hple⟩ := hpref hsort' p hpp
        refine ⟨?_, hple⟩
        have := (List.mem_filter.mp hrW).2
        exact hrt ▸ of_decide_eq_true this
      obtain ⟨hne', hchain', hhead', hse', hlast'⟩ :=
        stitch_invariant cycle prev endCur t0 acc hA0 hchain hhead hse hlastStart hinit
          hstopge hpre'
      exact ih (rows.filter (fun r => decide (endCur ≤ r.time))) cycle.stop cycle.mainTrend
        (stitch cycle prev endCur acc) segs hsort' hleT' hlastT' hstople
        (fun _ => hne') hchain' hhead' hse' hlast' (fun hcon => absurd hcon hne') hrun
    · rw [if_neg hlt] at hrun
      have hsegs : acc.reverse = segs := by simpa using hrun
      subst hsegs
      have hTeq : endCur = T := by
        have h1 : lastRow.time = T := hlastT lastRow hgl
        have h2 : T ≤ endCur := h1 ▸ not_lt.mp hlt
        exact le_antisymm hendT h2
      refine ⟨?_, ?_, ?_, ?_, ?_⟩
      · exact List.chain'_reverse.mpr hchain
      · intro s hs
        exact hse s (List.mem_reverse.mp hs)
      · intro s hs
        rw [List.head?_reverse] at hs
        exact hlastStart s hs
      · intro s hs
        rw [List.getLast?_reverse] at hs
        exact (hhead s hs).trans hTeq
      · intro hcon
        rw [List.reverse_eq_nil_iff] at hcon
        exact (hinit hcon).symm.trans hTeq

/-- A contiguous chain of segments with `start ≤ stop`, anchored at `a`
and closing at `b`, covers exactly the interval `[a, b]`. -/
theorem chain_cover :
    ∀ (segs : List Segment) (a : ℚ),
      segs.Chain' (fun x y => x.stop = y.start) →
      (∀ s ∈ segs, s.start ≤ s.stop) →
      (∀ s, segs.head? = some s → s.start = a) →
      ∀ (b : ℚ), (∀ s, segs.getLast? = some s → s.stop = b) → segs ≠ [] →
      ∀ t : ℚ, (a ≤ t ∧ t ≤ b) ↔ ∃ s ∈ segs, s.start ≤ t ∧ t ≤ s.stop := by
  intro segs
  induction segs with
  | nil => intro a _ _ _ b _ hne; exact absurd rfl hne
  | cons s rest ih =>
    intro a hchain hse hhead b hlastb _ t
    have hsa : s.start = a := hhead s rfl
    cases rest with
    | nil =>
      have hsb : s.stop = b := hlastb s rfl
      constructor
      · rintro ⟨h1, h2⟩
        exact ⟨s, List.mem_cons_self s [], by rw [hsa]; exact h1, by rw [hsb]; exact h2⟩
      · rintro ⟨s', hs', h1, h2⟩
        rcases List.mem_cons.mp hs' with rfl | hcon
        · exact ⟨hsa ▸ h1, hsb ▸ h2⟩
        · simp at hcon
    | cons u rest' =>
      have hchain' := List.chain'_cons.mp hchain
      have ihh := ih u.start hchain'.2
        (fun x hx => hse x (List.mem_cons_of_mem s hx))
        (fun x hx => by cases Option.some.inj hx; rfl) b
        (fun x hx => hlastb x (by rw [getLast?_cons_ne_nil s (u :: rest') (by simp)]; exact hx))
        (by simp)
      have hstopb : s.stop ≤ b := by
        have := (ihh u.start).mpr ⟨u, List.mem_cons_self u rest', le_refl u.start,
          hse u (List.mem_cons_of_mem s (List.mem_cons_self u rest'))⟩
        rw [← hchain'.1] at this
        exact this.2
      constructor
      · rintro ⟨h1, h2⟩
        by_cases hcase : t ≤ s.stop
        · exact ⟨s, List.mem_cons_self s (u :: rest'), by rw [hsa]; exact h1, hcase⟩
        · have h3 : u.start ≤ t := by
            rw [← hchain'.1]
            exact le_of_not_le hcase
          obtain ⟨s', hmem, hh⟩ := (ihh t).mp ⟨h3, h2⟩
          exact ⟨s', List.mem_cons_of_mem s hmem, hh⟩
      · rintro ⟨s', hmem, h1, h2⟩
        rcases List.mem_cons.mp hmem with rfl | hmem'
        · exact ⟨hsa ▸ h1, le_trans h2 hstopb⟩
        · have hub := (ihh t).mpr ⟨s', hmem', h1, h2⟩
          refine ⟨?_, hub.2⟩
          calc a = s.start := hsa.symm
            _ ≤ s.stop := hse s (List.mem_cons_self s (u :: rest'))
            _ = u.start := hchain'.1
            _ ≤ t := hub.1

/-- C6 (amended): on any input on which `boom_bust_periods` terminates
normally and whose sorted rows span at least two distinct timestamps
(`time[0] < time[last]`), the returned segments are nonempty, contiguous
(`segment[i].end = segment[i+1].start`), start at `time[0]`, end at
`time[last]`, and their union covers exactly `[time[0], time[last]]`.
(For `time[0] = time[last]` the loop body never runs and the result is
the empty list, which covers nothing.) -/
theorem C6_coverage (df : DataFrame) (bc sc : ℚ) (fuel : ℕ) (segs : List Segment)
    (r0 : Row) (hhead : (sortByTime df.rows).head? = some r0)
    (lastRow : Row) (hlast : (sortByTime df.rows).getLast? = some lastRow)
    (hdist : r0.time < lastRow.time)
    (hrun : boom_bust_periods df bc sc fuel = some (Except.ok segs)) :
    segs ≠ [] ∧
    segs.Chain' (fun a b => a.stop = b.start) ∧
    (∀ s, segs.head? = some s → s.start = r0.time) ∧
    (∀ s, segs.getLast? = some s → s.stop = lastRow.time) ∧
    (∀ s ∈ segs, s.start ≤ s.stop) ∧
    (∀ t : ℚ, (r0.time ≤ t ∧ t ≤ lastRow.time) ↔
      ∃ s ∈ segs, s.start ≤ t ∧ t ≤ s.stop) := by
  rw [boom_bust_periods] at hrun
  by_cases hht : df.hasTime = true
  · rw [if_pos hht] at hrun
    have hex : ∃ rest, sortByTime df.rows = r0 :: rest := by
      rcases hsort0 : sortByTime df.rows with _ | ⟨x, rest⟩
      · rw [hsort0] at hhead
        simp at hhead
      · rw [hsort0] at hhead
        have hx : x = r0 := by simpa using hhead
        exact ⟨rest, by rw [hx]⟩
    obtain ⟨rest, hsrt⟩ := hex
    rw [hsrt] at hlast
    simp only [hsrt] at hrun
    have hsorted : (r0 :: rest).Pairwise (fun a b => a.time ≤ b.time) := by
      rw [← hsrt]
      exact sortByTime_pairwise df.rows
    have hgl : (r0 :: rest).getLast ((by simp) : (r0 :: rest) ≠ []) = lastRow := by
      have := List.getLast?_eq_getLast (r0 :: rest) (by simp)
      exact Option.some.inj (this.symm.trans hlast)
    have hleT : ∀ r ∈ (r0 :: rest), r.time ≤ lastRow.time := by
      intro r hr
      have := time_le_getLast (r0 :: rest) hsorted (by simp) r hr
      rwa [hgl] at this
    have hmain := periodsAux_invariant bc sc df.hasPrice r0.time lastRow.time fuel
      (r0 :: rest) r0.time Trend.none [] segs hsorted hleT
      (fun lr hlr => by
        have := Option.some.inj (hlast.symm.trans hlr)
        rw [← this])
      (hleT r0 (by simp))
      (fun hcon => absurd rfl hcon)
      (by simp)
      (fun s hs => by simp at hs)
      (fun s hs => by simp at hs)
      (fun s hs => by simp at hs)
      (fun _ => rfl)
      hrun
    obtain ⟨hchain, hse, hheadst, hlastst, hempty⟩ := hmain
    have hne : segs ≠ [] := by
      intro hcon
      exact absurd (hempty hcon) (ne_of_lt hdist)
    exact ⟨hne, hchain, hheadst, hlastst, hse,
      chain_cover segs r0.time hchain hse hheadst lastRow.time hlastst hne⟩
  · rw [if_neg hht] at hrun
    simp at hrun

/-- C6 counterexample: on the single-observation input `[(time 1, price
10)]` the loop body never runs, `boom_bust_periods` returns the empty
segment list, and no segment covers the point `time[0] = time[last] = 1`,
so the union of segments does not cover `[time[0], time[last]]`. -/
theorem C6_counterexample :
    boom_bust_periods ⟨true, true, [⟨1, 10⟩]⟩ (3/10) (3/10) 1 =
      some (Except.ok ([] : List Segment)) ∧
    ((1 : ℚ) ≤ 1 ∧ (1 : ℚ) ≤ 1) ∧
    ¬ ∃ s ∈ ([] : List Segment), s.start ≤ (1 : ℚ) ∧ (1 : ℚ) ≤ s.stop := by
  refine ⟨by with_unfolding_all rfl, ⟨le_refl 1, le_refl 1⟩, ?_⟩
  rintro ⟨s, hs, -⟩
  simp at hs

/-- Concrete instantiation of `C6_coverage` on a two-row flat series. -/
theorem C6_witness :
    ([⟨Trend.none, 1, 2⟩] : List Segment) ≠ [] ∧
    ([⟨Trend.none, 1, 2⟩] : List Segment).Chain' (fun a b => a.stop = b.start) ∧
    (∀ s, ([⟨Trend.none, 1, 2⟩] : List Segment).head? = some s →
      s.start = Row.time ⟨1, 10⟩) ∧
    (∀ s, ([⟨Trend.none, 1, 2⟩] : List Segment).getLast? = some s →
      s.stop = Row.time ⟨2, 10⟩) ∧
    (∀ s ∈ ([⟨Trend.none, 1, 2⟩] : List Segment), s.start ≤ s.stop) ∧
    (∀ t : ℚ, (Row.time ⟨1, 10⟩ ≤ t ∧ t ≤ Row.time ⟨2, 10⟩) ↔
      ∃ s ∈ ([⟨Trend.none, 1, 2⟩] : List Segment), s.start ≤ t ∧ t ≤ s.stop) :=
  C6_coverage ⟨true, true, [⟨1, 10⟩, ⟨2, 10⟩]⟩ (3/10) (3/10) 3 [⟨Trend.none, 1, 2⟩]
    ⟨1, 10⟩ (by with_unfolding_all decide)
    ⟨2, 10⟩ (by with_unfolding_all decide)
    (by with_unfolding_all decide)
    (by with_unfolding_all decide)

/-- Termination of the segmentation loop with fuel bounded by the number
of rows strictly beyond the cursor: each iteration either exits, or the
scan succeeds and moves the cursor to a strictly later timestamp, so the
count of rows strictly beyond the cursor strictly decreases. -/
theorem periodsAux_terminates (bc sc : ℚ) :
    ∀ (fuel : ℕ) (rows : List Row) (endCur : ℚ) (prev : Trend) (acc : List Segment),
      rows.Pairwise (fun a b => a.time < b.time) →
      (∀ r ∈ rows, 0 < r.price) →
      0 < bc → 0 < sc →
      (∃ r ∈ rows, r.time = endCur) →
      (rows.filter (fun r => decide (endCur < r.time))).length < fuel →
      ∃ segs, boomBustPeriodsAux bc sc true fuel rows endCur prev acc =
        some (Except.ok segs) := by
  intro fuel
  induction fuel with
  | zero =>
    intro rows endCur prev acc _ _ _ _ _ hm
    exact absurd hm (Nat.not_lt_zero _)
  | succ f ih =>
    rintro rows endCur prev acc hsort hpos hbc hsc ⟨re, hre, hret⟩ hmeas
    have hne : rows ≠ [] := List.ne_nil_of_mem hre
    obtain ⟨lastRow, hgl⟩ : ∃ lr, rows.getLast? = some lr :=
      ⟨rows.getLast hne, List.getLast?_eq_getLast rows hne⟩
    rw [boomBustPeriodsAux]
    simp only [hgl]
    by_cases hlt : endCur < lastRow.time
    case neg =>
      rw [if_neg hlt]
      exact ⟨acc.reverse, rfl⟩
    rw [if_pos hlt]
    set W := rows.filter (fun r => decide (endCur ≤ r.time)) with hWdef
    obtain ⟨rest, hW⟩ := filter_ge_head endCur rows hsort re hre hret
    rw [← hWdef] at hW
    obtain ⟨cycle, hscan⟩ := onePeriod_ok_of_pos W bc sc (by rw [hW]; simp)
      (fun r hr => hpos r (List.mem_filter.mp hr).1) hbc hsc
    simp only [hscan]
    obtain ⟨hWne, hstopmem, _, hstopnone, hstopidx⟩ :=
      onePeriod_ok_window true W bc sc cycle hscan
    have hsortW : W.Pairwise (fun a b => a.time < b.time) :=
      hsort.filter (fun r => decide (endCur ≤ r.time))
    have hprog : endCur < cycle.stop := by
      by_cases htr : cycle.mainTrend = Trend.none
      · have hstop := hstopnone htr hWne
        have hWlast : W.getLast? = some lastRow :=
          getLast?_filter_of_getLast _ rows lastRow hgl (decide_eq_true (le_of_lt hlt))
        have hWlast' : W.getLast hWne = lastRow :=
          Option.some.inj ((List.getLast?_eq_getLast W hWne).symm.trans hWlast)
        rw [hstop, hWlast']
        exact hlt
      · obtain ⟨e, he1, helt, hety⟩ := hstopidx htr
        have hW0 : W[0]! = re := by
          rw [hW]
          simp
        have hstrict := sorted_time_strict W hsortW 0 e (by omega) helt
        rw [hW0, hret, hety] at hstrict
        exact hstrict
    have hsub : W.filter (fun r => decide (cycle.stop < r.time)) =
        (rows.filter (fun r => decide (endCur < r.time))).filter
          (fun r => decide (cycle.stop < r.time)) := by
      rw [hWdef, List.filter_filter, List.filter_filter]
      apply List.filter_congr
      intro r _
      by_cases hc : cycle.stop < r.time
      · simp [hc, le_of_lt (lt_trans hprog hc), lt_trans hprog hc]
      · simp [hc]
    have hk : (W.filter (fun r => decide (cycle.stop < r.time))).length <
        (rows.filter (fun r => decide (endCur < r.time))).length := by
      rw [hsub]
      apply List.length_filter_lt_length_iff_exists.mpr
      obtain ⟨rs, hrsW, hrst⟩ := hstopmem
      refine ⟨rs, ?_, ?_⟩
      · exact List.mem_filter.mpr ⟨(List.mem_filter.mp hrsW).1,
          decide_eq_true (by rw [hrst]; exact hprog)⟩
      · simp [hrst]
    exact ih W cycle.stop cycle.mainTrend (stitch cycle prev endCur acc)
      hsortW (fun r hr => hpos r (List.mem_filter.mp hr).1) hbc hsc
      hstopmem (by omega)

/-- C5: on a non-empty, time-sorted observation sequence with distinct
times (and with both columns, positive prices and positive threshold
fractions, as the spec's data model assumes), the segmentation loop
terminates normally: fuel `rows.length + 1` is never exhausted because
every scan either finds a crossing, strictly advancing the end cursor to
a later timestamp, or finds none and sets the cursor to the window's own
last timestamp, which equals the global last timestamp, so the loop
condition `end < time[last]` is reached exactly at equality. -/
theorem C5_termination (df : DataFrame) (bc sc : ℚ)
    (hsorted : df.rows.Pairwise (fun a b => a.time < b.time))
    (hne : df.rows ≠ [])
    (hpos : ∀ r ∈ df.rows, 0 < r.price)
    (hbc : 0 < bc) (hsc : 0 < sc)
    (hht : df.hasTime = true) (hhp : df.hasPrice = true) :
    ∃ segs, boom_bust_periods df bc sc (df.rows.length + 1) =
      some (Except.ok segs) := by
  rw [boom_bust_periods, if_pos hht]
  have hself : sortByTime df.rows = df.rows :=
    sortByTime_eq_self df.rows (hsorted.imp (fun h => le_of_lt h))
  rcases hrows : df.rows with _ | ⟨r0, rest⟩
  · exact absurd hrows hne
  rw [hrows] at hself hsorted hpos
  simp only [hself, hhp]
  apply periodsAux_terminates bc sc ((r0 :: rest).length + 1) (r0 :: rest) r0.time
    Trend.none [] hsorted hpos hbc hsc
    ⟨r0, List.mem_cons_self r0 rest, rfl⟩
  have := List.length_filter_le (fun r => decide (r0.time < r.time)) (r0 :: rest)
  omega

/-- Concrete instantiation of `C5_termination` on the repository's own
sample series (`time = [200..1200]`, `price = [9,10,29,2,69,10,2,69,120,6,7]`). -/
theorem C5_witness :
    ∃ segs, boom_bust_periods
      ⟨true, true, [⟨200, 9⟩, ⟨300, 10⟩, ⟨400, 29⟩, ⟨500, 2⟩, ⟨600, 69⟩, ⟨700, 10⟩,
        ⟨800, 2⟩, ⟨900, 69⟩, ⟨1000, 120⟩, ⟨1100, 6⟩, ⟨1200, 7⟩]⟩
      (3/10) (3/10) 12 = some (Except.ok segs) :=
  C5_termination
    ⟨true, true, [⟨200, 9⟩, ⟨300, 10⟩, ⟨400, 29⟩, ⟨500, 2⟩, ⟨600, 69⟩, ⟨700, 10⟩,
      ⟨800, 2⟩, ⟨900, 69⟩, ⟨1000, 120⟩, ⟨1100, 6⟩, ⟨1200, 7⟩]⟩
    (3/10) (3/10)
    (by with_unfolding_all decide) (by decide)
    (by with_unfolding_all decide)
    (by with_unfolding_all decide) (by with_unfolding_all decide)
    rfl rfl

/-- C9 (amended): a flat price series (every price equal to the first
price) whose sorted rows span at least two distinct timestamps is
classified as one single `none` segment covering `[time[0], time[last]]`,
with no error; a flat series with `time[0] = time[last]` (e.g. a single
observation) instead yields the empty segment list. -/
theorem C9_flat_series (df : DataFrame) (bc sc : ℚ) (fuel : ℕ) (p0 : ℚ)
    (hht : df.hasTime = true) (hhp : df.hasPrice = true)
    (hflat : ∀ r ∈ df.rows, r.price = p0)
    (hp0 : 0 < p0) (hbc : 0 ≤ bc) (hsc : 0 ≤ sc)
    (r0 : Row) (hhead : (sortByTime df.rows).head? = some r0)
    (lastRow : Row) (hlast : (sortByTime df.rows).getLast? = some lastRow)
    (hdist : r0.time < lastRow.time)
    (hfuel : 2 ≤ fuel) :
    boom_bust_periods df bc sc fuel =
      some (Except.ok [⟨Trend.none, r0.time, lastRow.time⟩]) := by
  obtain ⟨f, rfl⟩ : ∃ f, fuel = f + 2 := ⟨fuel - 2, by omega⟩
  rw [boom_bust_periods, if_pos hht]
  have hex : ∃ rest, sortByTime df.rows = r0 :: rest := by
    rcases hsort0 : sortByTime df.rows with _ | ⟨x, rest⟩
    · rw [hsort0] at hhead
      simp at hhead
    · rw [hsort0] at hhead
      have hx : x = r0 := by simpa using hhead
      exact ⟨rest, by rw [hx]⟩
  obtain ⟨rest, hsrt⟩ := hex
  rw [hsrt] at hlast
  simp only [hsrt]
  rw [boomBustPeriodsAux]
  simp only [hlast]
  rw [if_pos hdist]
  have hsortW : (r0 :: rest).Pairwise (fun a b => a.time ≤ b.time) :=
    hsrt ▸ sortByTime_pairwise df.rows
  have hfilter : (r0 :: rest).filter (fun r => decide (r0.time ≤ r.time)) = r0 :: rest := by
    apply List.filter_eq_self.mpr
    intro a ha
    apply decide_eq_true
    rcases List.mem_cons.mp ha with rfl | hmem
    · exact le_refl _
    · exact (List.pairwise_cons.mp hsortW).1 a hmem
  simp only [hfilter]
  have hmem_flat : ∀ r ∈ (r0 :: rest), r.price = p0 := by
    intro r hr
    exact hflat r ((sortByTime_mem df.rows r).mp (hsrt ▸ hr))
  have hplen0 : 0 < (pricesOf (⟨true, df.hasPrice, r0 :: rest⟩ : DataFrame)).length := by
    simp [pricesOf]
  have hpflat : ∀ i, i < (pricesOf (⟨true, df.hasPrice, r0 :: rest⟩ : DataFrame)).length →
      (pricesOf (⟨true, df.hasPrice, r0 :: rest⟩ : DataFrame))[i]! = p0 := by
    intro i hi
    have hi' : i < (r0 :: rest).length := by simpa [pricesOf] using hi
    rw [pricesOf_getElem! _ i hi']
    apply hmem_flat
    show (r0 :: rest)[i]! ∈ r0 :: rest
    rw [getElem!_pos (r0 :: rest) i hi']
    exact (r0 :: rest).getElem_mem hi'
  have hbnone : boomIdx? ⟨true, df.hasPrice, r0 :: rest⟩ bc = Option.none := by
    rw [boomIdx?, firstIdxWhere_eq_none]
    intro i hi
    apply decide_eq_false
    rw [hpflat i hi, boomThreshold, hpflat 0 hplen0]
    intro hcon
    nlinarith [mul_nonneg (le_of_lt hp0) hbc]
  have hunone : bustIdx? ⟨true, df.hasPrice, r0 :: rest⟩ sc = Option.none := by
    rw [bustIdx?, firstIdxWhere_eq_none]
    intro i hi
    apply decide_eq_false
    rw [hpflat i hi, bustThreshold, hpflat 0 hplen0]
    intro hcon
    nlinarith [mul_nonneg (le_of_lt hp0) hsc]
  have hscan : boom_bust_one_period ⟨true, df.hasPrice, r0 :: rest⟩ bc sc =
      Except.ok (mkNoneCycle (timesOf ⟨true, df.hasPrice, r0 :: rest⟩)) := by
    rw [boom_bust_one_period, if_neg (by simp), if_neg (not_not_intro ⟨hhp, rfl⟩)]
    simp only [hbnone, hunone]
  simp only [hscan]
  have hstop : (mkNoneCycle (timesOf ⟨true, df.hasPrice, r0 :: rest⟩)).stop = lastRow.time := by
    rw [show (mkNoneCycle (timesOf ⟨true, df.hasPrice, r0 :: rest⟩)).stop =
      (timesOf ⟨true, df.hasPrice, r0 :: rest⟩).getLast! from rfl]
    rw [timesOf_getLast! ⟨true, df.hasPrice, r0 :: rest⟩ (by simp)]
    have := List.getLast?_eq_getLast (r0 :: rest) (by simp)
    have h2 := Option.some.inj (this.symm.trans hlast)
    exact congrArg Row.time h2
  have hstitch : stitch (mkNoneCycle (timesOf ⟨true, df.hasPrice, r0 :: rest⟩))
      Trend.none r0.time [] =
      [⟨Trend.none, r0.time, (mkNoneCycle (timesOf ⟨true, df.hasPrice, r0 :: rest⟩)).stop⟩] := by
    rw [stitch, if_neg (by simp [mkNoneCycle])]
    rfl
  rw [hstitch, hstop]
  rw [show (mkNoneCycle (timesOf ⟨true, df.hasPrice, r0 :: rest⟩)).mainTrend =
    Trend.none from rfl]
  rw [boomBustPeriodsAux]
  simp only [hlast]
  rw [if_neg (lt_irrefl lastRow.time)]
  rfl

/-- C9 counterexample: the single-observation flat series `[(5, 7)]`
yields the empty segment list, not a single `none` segment. -/
theorem C9_counterexample :
    boom_bust_periods ⟨true, true, [⟨5, 7⟩]⟩ (3/10) (3/10) 2 =
      some (Except.ok ([] : List Segment)) ∧
    ∀ s : Segment,
      boom_bust_periods ⟨true, true, [⟨5, 7⟩]⟩ (3/10) (3/10) 2 ≠
        some (Except.ok [s]) := by
  constructor
  · with_unfolding_all rfl
  · intro s h
    rw [show boom_bust_periods ⟨true, true, [⟨5, 7⟩]⟩ (3/10) (3/10) 2 =
      some (Except.ok ([] : List Segment)) from by with_unfolding_all rfl] at h
    simp at h

/-- Concrete instantiation of `C9_flat_series`: the spec's Scenario A,
flat price `[10,10,10,10]` at times `[1,2,3,4]`, yields the single
segment `{none, start = 1, end = 4}`. -/
theorem C9_witness :
    boom_bust_periods ⟨true, true, [⟨1, 10⟩, ⟨2, 10⟩, ⟨3, 10⟩, ⟨4, 10⟩]⟩
      (3/10) (3/10) 5 = some (Except.ok [⟨Trend.none, 1, 4⟩]) :=
  C9_flat_series ⟨true, true, [⟨1, 10⟩, ⟨2, 10⟩, ⟨3, 10⟩, ⟨4, 10⟩]⟩ (3/10) (3/10) 5 10
    rfl rfl (by with_unfolding_all decide)
    (by with_unfolding_all decide) (by with_unfolding_all decide)
    (by with_unfolding_all decide)
    ⟨1, 10⟩ (by with_unfolding_all decide)
    ⟨4, 10⟩ (by with_unfolding_all decide)
    (by with_unfolding_all decide) (by decide)

/-- The fold of `boom_bust` appends each segment's `(start, end)` pair to
exactly the list of its own trend, in order. -/
theorem foldl_pushSegment :
    ∀ (segs : List Segment) (d : TrendDict),
      (segs.foldl pushSegment d).boomList =
        d.boomList ++ (segs.filter (fun s => decide (s.mainTrend = Trend.boom))).map
          (fun s => (s.start, s.stop)) ∧
      (segs.foldl pushSegment d).bustList =
        d.bustList ++ (segs.filter (fun s => decide (s.mainTrend = Trend.bust))).map
          (fun s => (s.start, s.stop)) ∧
      (segs.foldl pushSegment d).noneList =
        d.noneList ++ (segs.filter (fun s => decide (s.mainTrend = Trend.none))).map
          (fun s => (s.start, s.stop)) := by
  intro segs
  induction segs with
  | nil => intro d; simp
  | cons s rest ih =>
    intro d
    obtain ⟨ihb, ihu, ihn⟩ := ih (pushSegment d s)
    rcases htr : s.mainTrend with _ | _ | _ <;>
      simp only [List.foldl_cons, List.filter_cons, htr] <;>
      constructor
    · rw [ihb]
      simp [pushSegment, htr]
    · constructor
      · rw [ihu]
        simp [pushSegment, htr]
      · rw [ihn]
        simp [pushSegment, htr]
    · rw [ihb]
      simp [pushSegment, htr]
    · constructor
      · rw [ihu]
        simp [pushSegment, htr]
      · rw [ihn]
        simp [pushSegment, htr]
    · rw [ihb]
      simp [pushSegment, htr]
    · constructor
      · rw [ihu]
        simp [pushSegment, htr]
      · rw [ihn]
        simp [pushSegment, htr]

/-- C10: `boom_bust` is a pure regrouping of the segment sequence into
the fixed-key dict: each key holds exactly the `(start, end)` pairs of
the segments of that trend, in their original order, and flattening the
three lists back recovers exactly the intervals of the segment sequence. -/
theorem C10_projection (df : DataFrame) (bc sc : ℚ) (fuel : ℕ)
    (segs : List Segment) (d : TrendDict)
    (hsegs : boom_bust_periods df bc sc fuel = some (Except.ok segs))
    (hd : boom_bust df bc sc fuel = some (Except.ok d)) :
    d.boomList = (segs.filter (fun s => decide (s.mainTrend = Trend.boom))).map
      (fun s => (s.start, s.stop)) ∧
    d.bustList = (segs.filter (fun s => decide (s.mainTrend = Trend.bust))).map
      (fun s => (s.start, s.stop)) ∧
    d.noneList = (segs.filter (fun s => decide (s.mainTrend = Trend.none))).map
      (fun s => (s.start, s.stop)) ∧
    ∀ pr : ℚ × ℚ, (pr ∈ d.boomList ∨ pr ∈ d.bustList ∨ pr ∈ d.noneList) ↔
      ∃ s ∈ segs, pr = (s.start, s.stop) := by
  rw [boom_bust, hsegs] at hd
  have hdval : segs.foldl pushSegment ⟨[], [], []⟩ = d := by
    have := Option.some.inj hd
    exact Except.ok.inj this
  subst hdval
  obtain ⟨hb, hu, hn⟩ := foldl_pushSegment segs ⟨[], [], []⟩
  simp only [List.nil_append] at hb hu hn
  refine ⟨hb, hu, hn, ?_⟩
  intro pr
  rw [hb, hu, hn]
  constructor
  · intro hcase
    rcases hcase with hmem | hmem | hmem <;>
    · obtain ⟨s, hs, rfl⟩ := List.mem_map.mp hmem
      exact ⟨s, (List.mem_filter.mp hs).1, rfl⟩
  · rintro ⟨s, hs, rfl⟩
    rcases htr : s.mainTrend with _ | _ | _
    · exact Or.inl (List.mem_map.mpr ⟨s, List.mem_filter.mpr ⟨hs, decide_eq_true htr⟩, rfl⟩)
    · exact Or.inr (Or.inl (List.mem_map.mpr ⟨s, List.mem_filter.mpr ⟨hs, decide_eq_true htr⟩, rfl⟩))
    · exact Or.inr (Or.inr (List.mem_map.mpr ⟨s, List.mem_filter.mpr ⟨hs, decide_eq_true htr⟩, rfl⟩))

set_option maxRecDepth 8000 in
/-- Concrete instantiation of `C10_projection` on the repository's sample
series: the seven segments regroup into three boom, three bust and one
`none` interval with order preserved. -/
theorem C10_witness :
    (TrendDict.boomList ⟨[(200, 400), (500, 600), (800, 1000)],
        [(400, 500), (600, 800), (1000, 1100)], [(1100, 1200)]⟩ =
      (([⟨Trend.boom, 200, 400⟩, ⟨Trend.bust, 400, 500⟩, ⟨Trend.boom, 500, 600⟩,
        ⟨Trend.bust, 600, 800⟩, ⟨Trend.boom, 800, 1000⟩, ⟨Trend.bust, 1000, 1100⟩,
        ⟨Trend.none, 1100, 1200⟩] : List Segment).filter
          (fun s => decide (s.mainTrend = Trend.boom))).map
        (fun s => (s.start, s.stop))) ∧
    (TrendDict.bustList ⟨[(200, 400), (500, 600), (800, 1000)],
        [(400, 500), (600, 800), (1000, 1100)], [(1100, 1200)]⟩ =
      (([⟨Trend.boom, 200, 400⟩, ⟨Trend.bust, 400, 500⟩, ⟨Trend.boom, 500, 600⟩,
        ⟨Trend.bust, 600, 800⟩, ⟨Trend.boom, 800, 1000⟩, ⟨Trend.bust, 1000, 1100⟩,
        ⟨Trend.none, 1100, 1200⟩] : List Segment).filter
          (fun s => decide (s.mainTrend = Trend.bust))).map
        (fun s => (s.start, s.stop))) ∧
    (TrendDict.noneList ⟨[(200, 400), (500, 600), (800, 1000)],
        [(400, 500), (600, 800), (1000, 1100)], [(1100, 1200)]⟩ =
      (([⟨Trend.boom, 200, 400⟩, ⟨Trend.bust, 400, 500⟩, ⟨Trend.boom, 500, 600⟩,
        ⟨Trend.bust, 600, 800⟩, ⟨Trend.boom, 800, 1000⟩, ⟨Trend.bust, 1000, 1100⟩,
        ⟨Trend.none, 1100, 1200⟩] : List Segment).filter
          (fun s => decide (s.mainTrend = Trend.none))).map
        (fun s => (s.start, s.stop))) ∧
    ∀ pr : ℚ × ℚ,
      (pr ∈ TrendDict.boomList ⟨[(200, 400), (500, 600), (800, 1000)],
          [(400, 500), (600, 800), (1000, 1100)], [(1100, 1200)]⟩ ∨
       pr ∈ TrendDict.bustList ⟨[(200, 400), (500, 600), (800, 1000)],
          [(400, 500), (600, 800), (1000, 1100)], [(1100, 1200)]⟩ ∨
       pr ∈ TrendDict.noneList ⟨[(200, 400), (500, 600), (800, 1000)],
          [(400, 500), (600, 800), (1000, 1100)], [(1100, 1200)]⟩) ↔
      ∃ s ∈ ([⟨Trend.boom, 200, 400⟩, ⟨Trend.bust, 400, 500⟩, ⟨Trend.boom, 500, 600⟩,
        ⟨Trend.bust, 600, 800⟩, ⟨Trend.boom, 800, 1000⟩, ⟨Trend.bust, 1000, 1100⟩,
        ⟨Trend.none, 1100, 1200⟩] : List Segment), pr = (s.start, s.stop) :=
  C10_projection
    ⟨true, true, [⟨200, 9⟩, ⟨300, 10⟩, ⟨400, 29⟩, ⟨500, 2⟩, ⟨600, 69⟩, ⟨700, 10⟩,
      ⟨800, 2⟩, ⟨900, 69⟩, ⟨1000, 120⟩, ⟨1100, 6⟩, ⟨1200, 7⟩]⟩
    (3/10) (3/10) 12
    [⟨Trend.boom, 200, 400⟩, ⟨Trend.bust, 400, 500⟩, ⟨Trend.boom, 500, 600⟩,
      ⟨Trend.bust, 600, 800⟩, ⟨Trend.boom, 800, 1000⟩, ⟨Trend.bust, 1000, 1100⟩,
      ⟨Trend.none, 1100, 1200⟩]
    ⟨[(200, 400), (500, 600), (800, 1000)],
      [(400, 500), (600, 800), (1000, 1100)], [(1100, 1200)]⟩
    (by with_unfolding_all decide) (by with_unfolding_all decide)

end Computations
